import Mathlib

/-!
Verification of the expression calculator in `calc.py`.

The development shallowly embeds the lexer (`Lexer.lex`), the recursive
descent parser (`Parser2`), the AST type (`Expr`) and the compiler plus
evaluator (`Code.gen` / `Code.run`) of the source program, which is written
in Python 2.  Machine numerics are idealised: Python ints become `Int`,
Python floats become `Rat`, and Python complex numbers become pairs of
`Rat`; transcendental primitives of the `math` module (sin, log, pow on
non-integral exponents, ...) are kept abstract as fields of a `MathLib`
record, since no statement below depends on their numeric values.
-/

namespace PyCalc

/-- Token of the lexer, mirroring class `Lexeme` of the source: a kind tag
(`id`, `num`, `//`, a one character string, or the end marker `$`), a source
position and the matched text (`none` for the end marker). -/
structure Lexeme where
  name : String
  pos : Nat
  data : Option String
  deriving Repr, DecidableEq

/-- Longest digit prefix, as scanned by the numeric literal pattern. -/
def digitSpan (cs : List Char) : List Char × List Char :=
  (cs.takeWhile (·.isDigit), cs.dropWhile (·.isDigit))

/-- Match of the numeric literal pattern of the source,
regex (0|[1-9][0-9]*)(\.[0-9]+)? , at the start of `cs`; returns the
matched characters and the rest.  It is only invoked when the first
character is a digit, in which position the pattern always matches, which
is why `Lexer.lexnum` of the source can never actually raise. -/
def numLit (cs : List Char) : List Char × List Char :=
  let ip : List Char × List Char :=
    match cs with
    | '0' :: rest => (['0'], rest)
    | _ => digitSpan cs
  match ip.2 with
  | '.' :: r2 =>
    let fp := digitSpan r2
    if fp.1 = [] then ip else (ip.1 ++ '.' :: fp.1, fp.2)
  | _ => ip

/-- One left to right scan of the input, mirroring `Lexer.lex`: whitespace
is skipped, an alphabetic character starts an identifier of alphanumeric
characters, a digit starts a numeric literal, the two character sequence
`//` is one token, and every other character is a one character token; a
final `$` lexeme terminates the stream.  The fuel argument only bounds the
recursion and is chosen large enough to never run out. -/
def lexgo : Nat → List Char → Nat → List Lexeme
  | 0, _, i => [⟨"$", i, none⟩]
  | fuel + 1, cs, i =>
    match cs with
    | [] => [⟨"$", i, none⟩]
    | c :: rest =>
      if c.isWhitespace then
        lexgo fuel rest (i + 1)
      else if c.isAlpha then
        let idc := (c :: rest).takeWhile (·.isAlphanum)
        ⟨"id", i, some (String.mk idc)⟩ ::
          lexgo fuel ((c :: rest).dropWhile (·.isAlphanum)) (i + idc.length)
      else if c.isDigit then
        let nl := numLit (c :: rest)
        ⟨"num", i, some (String.mk nl.1)⟩ :: lexgo fuel nl.2 (i + nl.1.length)
      else if c = '/' ∧ rest.head? = some '/' then
        ⟨"//", i, some "//"⟩ :: lexgo fuel rest.tail (i + 2)
      else
        ⟨String.mk [c], i, some (String.mk [c])⟩ :: lexgo fuel rest (i + 1)

/-- The token stream of an input string, end marker included. -/
def lex (s : String) : List Lexeme :=
  lexgo (s.length + 2) s.toList 0

/-- Abstract syntax tree, mirroring class `Expr` of the source.  The
dynamic Python value `Expr(op, *args)` stores the payload string of a
number or identifier, or the applied function name, as its first argument;
here those three shapes are separate constructors, and `node` covers the
operator nodes (`+ - * / % // ^ ! abs`) with their child list. -/
inductive Expr where
  | num (text : String)
  | id (text : String)
  | node (op : String) (args : List Expr)
  | apply (fn : String) (args : List Expr)
  deriving Repr

/-- Parse failure, carrying the text and byte offset of the offending
token exactly as `Parser2.error` formats them (`none` stands for the
data of the end marker).  `fuelOut` marks an exhausted recursion budget and
is unreachable for the fuel supplied by `parse`. -/
inductive ParseError where
  | unexpected (data : Option String) (pos : Nat)
  | fuelOut
  deriving Repr, DecidableEq

/-- The current lookahead token: the head of the remaining stream. -/
def cur (ts : List Lexeme) : Lexeme :=
  ts.headD ⟨"$", 0, none⟩

/-- Test of `Parser2.lxin`: is the lookahead kind among the given names. -/
def lxin (ts : List Lexeme) (names : List String) : Bool :=
  names.contains (cur ts).name

/-- Parse error at the lookahead token, as raised by `Parser2.error`. -/
def perror (ts : List Lexeme) : Except ParseError α :=
  .error (.unexpected (cur ts).data (cur ts).pos)

/-- Advance past the lookahead, mirroring `Parser2.next`: consuming the
end marker is a parse error, so the stream below never becomes empty. -/
def pnext (ts : List Lexeme) : Except ParseError (List Lexeme) :=
  if (cur ts).name = "$" then perror ts else .ok ts.tail

/-- Left associative fold of `Parser2.parseEx` (the `right=False` branch):
the operand and operator run collected by a tail production is folded
leftmost first into nested binary nodes. -/
def foldOpsLeft (lhs : Expr) : List (String × Expr) → Expr
  | [] => lhs
  | (op, e) :: rest => foldOpsLeft (.node op [lhs, e]) rest

/-- Right associative fold of `Parser2.parseEx` (the `right=True` branch):
the run is folded rightmost first. -/
def foldOpsRight (lhs : Expr) : List (String × Expr) → Expr
  | [] => lhs
  | (op, e) :: rest => .node op [lhs, foldOpsRight e rest]

mutual

/-- Production `P -> E1` (`Parser2.parseP`). -/
def parseP : Nat → List Lexeme → Except ParseError (Expr × List Lexeme)
  | 0, _ => .error .fuelOut
  | fuel + 1, ts => do
    if lxin ts ["num", "id", "(", "|", "-"] then parseE1 fuel ts else perror ts

/-- Production `E1 -> E2 E1_` with a left associative fold
(`Parser2.parseE1`, an instance of `parseEx`). -/
def parseE1 : Nat → List Lexeme → Except ParseError (Expr × List Lexeme)
  | 0, _ => .error .fuelOut
  | fuel + 1, ts => do
    if lxin ts ["num", "id", "(", "|", "-"] then
      let (lhs, ts1) ← parseE2 fuel ts
      let (lst, ts2) ← parseE1T fuel ts1
      pure (foldOpsLeft lhs lst, ts2)
    else perror ts

/-- Tail production `E1_ -> + E2 E1_ | - E2 E1_ | e` (`Parser2.parseE1_`,
an instance of `parseEx_`). -/
def parseE1T : Nat → List Lexeme → Except ParseError (List (String × Expr) × List Lexeme)
  | 0, _ => .error .fuelOut
  | fuel + 1, ts => do
    if lxin ts ["+", "-"] then
      let c := cur ts
      let ts1 ← pnext ts
      let (lhs, ts2) ← parseE2 fuel ts1
      let (lst, ts3) ← parseE1T fuel ts2
      pure ((c.name, lhs) :: lst, ts3)
    else if lxin ts [")", "|", ",", "$"] then
      pure ([], ts)
    else perror ts

/-- Production `E2 -> E3 E2_` with a left associative fold
(`Parser2.parseE2`). -/
def parseE2 : Nat → List Lexeme → Except ParseError (Expr × List Lexeme)
  | 0, _ => .error .fuelOut
  | fuel + 1, ts => do
    if lxin ts ["num", "id", "(", "|", "-"] then
      let (lhs, ts1) ← parseE3 fuel ts
      let (lst, ts2) ← parseE2T fuel ts1
      pure (foldOpsLeft lhs lst, ts2)
    else perror ts

/-- Tail production `E2_ -> * E3 E2_ | / E3 E2_ | // E3 E2_ | % E3 E2_ | e`
(`Parser2.parseE2_`). -/
def parseE2T : Nat → List Lexeme → Except ParseError (List (String × Expr) × List Lexeme)
  | 0, _ => .error .fuelOut
  | fuel + 1, ts => do
    if lxin ts ["*", "/", "//", "%"] then
      let c := cur ts
      let ts1 ← pnext ts
      let (lhs, ts2) ← parseE3 fuel ts1
      let (lst, ts3) ← parseE2T fuel ts2
      pure ((c.name, lhs) :: lst, ts3)
    else if lxin ts ["+", "-", "$", ")", "|", ","] then
      pure ([], ts)
    else perror ts

/-- Production `E3 -> - E3 | E4` (`Parser2.parseE3`): unary minus applies
to a power level operand and recurses on itself. -/
def parseE3 : Nat → List Lexeme → Except ParseError (Expr × List Lexeme)
  | 0, _ => .error .fuelOut
  | fuel + 1, ts => do
    if lxin ts ["-"] then
      let ts1 ← pnext ts
      let (e, ts2) ← parseE3 fuel ts1
      pure (.node "-" [e], ts2)
    else if lxin ts ["num", "id", "(", "|"] then
      parseE4 fuel ts
    else perror ts

/-- Production `E4 -> E5 E4_` with a right associative fold
(`Parser2.parseE4`, the `right=True` instance of `parseEx`). -/
def parseE4 : Nat → List Lexeme → Except ParseError (Expr × List Lexeme)
  | 0, _ => .error .fuelOut
  | fuel + 1, ts => do
    if lxin ts ["num", "id", "(", "|"] then
      let (lhs, ts1) ← parseE5 fuel ts
      let (lst, ts2) ← parseE4T fuel ts1
      pure (foldOpsRight lhs lst, ts2)
    else perror ts

/-- Tail production `E4_ -> ^ E5 E4_ | e` (`Parser2.parseE4_`). -/
def parseE4T : Nat → List Lexeme → Except ParseError (List (String × Expr) × List Lexeme)
  | 0, _ => .error .fuelOut
  | fuel + 1, ts => do
    if lxin ts ["^"] then
      let c := cur ts
      let ts1 ← pnext ts
      let (lhs, ts2) ← parseE5 fuel ts1
      let (lst, ts3) ← parseE4T fuel ts2
      pure ((c.name, lhs) :: lst, ts3)
    else if lxin ts ["*", "/", "//", "%", "$", "+", "-", ")", "|", ","] then
      pure ([], ts)
    else perror ts

/-- Production `E5 -> E6 E5_` (`Parser2.parseE5`).  Note that the source
wraps the atom in at most one factorial node: it applies `!` only when
`parseE5_` returned a token, and `parseE5_` collapses consecutive `!`
signs pairwise. -/
def parseE5 : Nat → List Lexeme → Except ParseError (Expr × List Lexeme)
  | 0, _ => .error .fuelOut
  | fuel + 1, ts => do
    if lxin ts ["num", "id", "(", "|"] then
      let (e, ts1) ← parseE6 fuel ts
      let (o, ts2) ← parseE5T fuel ts1
      match o with
      | none => pure (e, ts2)
      | some _ => pure (.node "!" [e], ts2)
    else perror ts

/-- Tail production `E5_ -> ! E5_ | e` (`Parser2.parseE5_`).  The source
returns the token `!` when the recursive call returned `None` and `None`
when it returned a token, so the result alternates with the number of
consecutive `!` signs. -/
def parseE5T : Nat → List Lexeme → Except ParseError (Option String × List Lexeme)
  | 0, _ => .error .fuelOut
  | fuel + 1, ts => do
    if lxin ts ["!"] then
      let ts1 ← pnext ts
      let (o, ts2) ← parseE5T fuel ts1
      match o with
      | none => pure (some "!", ts2)
      | some _ => pure (none, ts2)
    else if lxin ts ["^", "$", "*", "/", "//", "%", "+", "-", ")", "|", ","] then
      pure (none, ts)
    else perror ts

/-- Production `E6 -> num | id A | ( E1 ) | bar E1 bar`
(`Parser2.parseE6`).  The final branch is unreachable from `parseE5`,
whose guard admits only the four listed lookaheads; the source would fall
off the end of the function there. -/
def parseE6 : Nat → List Lexeme → Except ParseError (Expr × List Lexeme)
  | 0, _ => .error .fuelOut
  | fuel + 1, ts => do
    let c := cur ts
    if c.name = "num" then
      let ts1 ← pnext ts
      pure (.num (c.data.getD ""), ts1)
    else if c.name = "id" then
      let ts1 ← pnext ts
      let (a, ts2) ← parseA fuel ts1
      match a with
      | none => pure (.id (c.data.getD ""), ts2)
      | some args => pure (.apply (c.data.getD "") args, ts2)
    else if c.name = "(" then
      let ts1 ← pnext ts
      let (e, ts2) ← parseE1 fuel ts1
      if lxin ts2 [")"] then
        let ts3 ← pnext ts2
        pure (e, ts3)
      else perror ts2
    else if c.name = "|" then
      let ts1 ← pnext ts
      let (e, ts2) ← parseE1 fuel ts1
      if lxin ts2 ["|"] then
        let ts3 ← pnext ts2
        pure (.node "abs" [e], ts3)
      else perror ts2
    else perror ts

/-- Production `A -> ( L ) | e` (`Parser2.parseA`): an identifier followed
by a parenthesized argument list is a call, otherwise the lookahead must
lie in the follow set of `E6`. -/
def parseA : Nat → List Lexeme → Except ParseError (Option (List Expr) × List Lexeme)
  | 0, _ => .error .fuelOut
  | fuel + 1, ts => do
    if lxin ts ["("] then
      let ts1 ← pnext ts
      let (ll, ts2) ← parseL fuel ts1
      if lxin ts2 [")"] then
        let ts3 ← pnext ts2
        pure (some ll, ts3)
      else perror ts2
    else if lxin ts ["!", "$", "^", "*", "/", "//", "%", "+", "-", ")", "|", ","] then
      pure (none, ts)
    else perror ts

/-- Production `L -> E1 L_` (`Parser2.parseL`): a nonempty comma separated
argument list. -/
def parseL : Nat → List Lexeme → Except ParseError (List Expr × List Lexeme)
  | 0, _ => .error .fuelOut
  | fuel + 1, ts => do
    if lxin ts ["num", "id", "(", "|", "-"] then
      let (e1, ts1) ← parseE1 fuel ts
      let (l2, ts2) ← parseLT fuel ts1
      match l2 with
      | none => pure ([e1], ts2)
      | some rest => pure (e1 :: rest, ts2)
    else perror ts

/-- Tail production `L_ -> , E1 L_ | e` (`Parser2.parseL_`). -/
def parseLT : Nat → List Lexeme → Except ParseError (Option (List Expr) × List Lexeme)
  | 0, _ => .error .fuelOut
  | fuel + 1, ts => do
    if lxin ts [","] then
      let ts1 ← pnext ts
      let (e1, ts2) ← parseE1 fuel ts1
      let (l2, ts3) ← parseLT fuel ts2
      match l2 with
      | none => pure ([e1], ts3)
      | some rest => pure (e1 :: rest, ts3)
    else if lxin ts [")"] then
      pure (none, ts)
    else perror ts

end

/-- Entry point mirroring `Parser2.parse`: lex the input and run the start
production on the token stream.  As in the source, tokens left over after
the start production succeeds are ignored.  The fuel bounds the total
number of production invocations; every production either consumes a token
before recursing or descends a chain of at most eight productions to `E6`,
which consumes one, so 64 invocations per token is ample. -/
def parse (s : String) : Except ParseError Expr := do
  let ts := lex s
  let (e, _) ← parseP (64 * (ts.length + 1)) ts
  pure e

/-! ## The numeric domain

Python 2 numbers as the calculator can produce them: machine ints
(arbitrary precision in Python, hence `Int`), floats (idealised as exact
rationals) and complex numbers (idealised as pairs of rationals). -/

/-- A runtime numeric value. -/
inductive Value where
  | int (n : ℤ)
  | real (q : ℚ)
  | complex (re im : ℚ)
  deriving Repr, DecidableEq

/-- Runtime failure, mirroring the Python exceptions that evaluation can
raise: `KeyError` from an environment lookup (carrying the missing key),
`ZeroDivisionError`, `ValueError` (factorial of a negative or fractional
number, logarithm of a nonpositive number, minimum of an empty list,
fractional power of a negative float) and `TypeError` (ordering or
rounding of complex numbers). -/
inductive EvalErr where
  | keyError (key : String)
  | zeroDiv
  | valueError
  | typeError
  deriving Repr, DecidableEq

/-- Compile time failure of `Code.gen`: an unknown function name (the
explicit `raise` of the source), a numeric literal text that `int`/`float`
cannot parse, an out of range tuple index on a malformed node, and the
final catch all `raise` for an unrecognised operator tag. -/
inductive GenError where
  | unknownFunction (fn : String)
  | badNum (text : String)
  | indexError
  | cantHandle (op : String)
  deriving Repr, DecidableEq

/-- Is the value a complex number. -/
def Value.isComplex : Value → Bool
  | .complex _ _ => true
  | _ => false

/-- The rational magnitude of a non complex value (0 on complex values,
where it is never consulted). -/
def Value.toQ : Value → ℚ
  | .int n => (n : ℚ)
  | .real q => q
  | .complex _ _ => 0

/-- Real part under promotion to complex. -/
def Value.re : Value → ℚ
  | .int n => (n : ℚ)
  | .real q => q
  | .complex a _ => a

/-- Imaginary part under promotion to complex. -/
def Value.im : Value → ℚ
  | .complex _ b => b
  | _ => 0

/-- The exact rational value of the binary64 constant `math.pi`. -/
def piFloat : ℚ := 884279719003555 / 281474976710656

/-- The exact rational value of the binary64 constant `math.e`. -/
def eFloat : ℚ := 6121026514868073 / 2251799813685248

/-- Abstract interface to the transcendental primitives of the Python
`math` and complex `pow` runtime.  Their numeric values are irrelevant to
every statement below, so the whole development is parametric in this
record; domain errors (negative logarithms and the like) are checked
before the primitives are consulted. -/
structure MathLib where
  sin : ℚ → ℚ
  cos : ℚ → ℚ
  tan : ℚ → ℚ
  log : ℚ → ℚ
  log10 : ℚ → ℚ
  log2 : ℚ → ℚ
  sqrt : ℚ → ℚ
  fpow : ℚ → ℚ → ℚ
  cpow : ℚ → ℚ → ℚ → ℚ → ℚ × ℚ

/-- A concrete instantiation of the primitives, used to state closed
evidence; nothing proved about the calculator depends on the choice. -/
def defaultMathLib : MathLib :=
  ⟨fun _ => 0, fun _ => 0, fun _ => 0, fun _ => 0, fun _ => 0, fun _ => 0,
   fun _ => 0, fun _ _ => 0, fun _ _ _ _ => (0, 0)⟩

/-- Binary arithmetic with the Python 2 promotion rule: two ints give an
int, a complex operand promotes both to complex, otherwise both promote
to float. -/
def promote2 (fi : ℤ → ℤ → ℤ) (fq : ℚ → ℚ → ℚ) (fc : ℚ → ℚ → ℚ → ℚ → ℚ × ℚ)
    (a b : Value) : Value :=
  match a, b with
  | .int m, .int n => .int (fi m n)
  | _, _ =>
    if a.isComplex || b.isComplex then
      let p := fc a.re a.im b.re b.im
      .complex p.1 p.2
    else
      .real (fq a.toQ b.toQ)

/-- Python `+` on numbers. -/
def pyAdd : Value → Value → Value :=
  promote2 (· + ·) (· + ·) (fun ar ai br bi => (ar + br, ai + bi))

/-- Python binary `-` on numbers. -/
def pySub : Value → Value → Value :=
  promote2 (· - ·) (· - ·) (fun ar ai br bi => (ar - br, ai - bi))

/-- Python `*` on numbers. -/
def pyMul : Value → Value → Value :=
  promote2 (· * ·) (· * ·)
    (fun ar ai br bi => (ar * br - ai * bi, ar * bi + ai * br))

/-- Exact complex division. -/
def cdiv (ar ai br bi : ℚ) : ℚ × ℚ :=
  let d := br * br + bi * bi
  ((ar * br + ai * bi) / d, (ai * br - ar * bi) / d)

/-- Python 2 classic `/`: on two ints this is flooring integer division,
with a float operand it is true division, with a complex operand complex
division; a zero divisor raises `ZeroDivisionError`. -/
def pyDiv (a b : Value) : Except EvalErr Value :=
  match a, b with
  | .int m, .int n =>
    if n = 0 then .error .zeroDiv else .ok (.int (Int.fdiv m n))
  | _, _ =>
    if a.isComplex || b.isComplex then
      if b.re = 0 ∧ b.im = 0 then .error .zeroDiv
      else
        let p := cdiv a.re a.im b.re b.im
        .ok (.complex p.1 p.2)
    else if b.toQ = 0 then .error .zeroDiv
    else .ok (.real (a.toQ / b.toQ))

/-- Python `//`, explicit floor division: flooring on ints and floats; on
complex operands Python 2 floors the real part of the true quotient and
zeroes the imaginary part. -/
def pyFloorDiv (a b : Value) : Except EvalErr Value :=
  match a, b with
  | .int m, .int n =>
    if n = 0 then .error .zeroDiv else .ok (.int (Int.fdiv m n))
  | _, _ =>
    if a.isComplex || b.isComplex then
      if b.re = 0 ∧ b.im = 0 then .error .zeroDiv
      else
        let p := cdiv a.re a.im b.re b.im
        .ok (.complex ((⌊p.1⌋ : ℤ) : ℚ) 0)
    else if b.toQ = 0 then .error .zeroDiv
    else .ok (.real ((⌊a.toQ / b.toQ⌋ : ℤ) : ℚ))

/-- Python `%`, the remainder of floor division (the result follows the
sign of the divisor); on complex operands it is `a - b * (a // b)`. -/
def pyMod (a b : Value) : Except EvalErr Value :=
  match a, b with
  | .int m, .int n =>
    if n = 0 then .error .zeroDiv else .ok (.int (Int.fmod m n))
  | _, _ =>
    if a.isComplex || b.isComplex then
      if b.re = 0 ∧ b.im = 0 then .error .zeroDiv
      else
        let d : ℚ := ((⌊(cdiv a.re a.im b.re b.im).1⌋ : ℤ) : ℚ)
        .ok (.complex (a.re - b.re * d) (a.im - b.im * d))
    else if b.toQ = 0 then .error .zeroDiv
    else .ok (.real (a.toQ - b.toQ * ((⌊a.toQ / b.toQ⌋ : ℤ) : ℚ)))

/-- Exact nonnegative complex power by repeated multiplication. -/
def cnpow (x : ℚ × ℚ) : Nat → ℚ × ℚ
  | 0 => (1, 0)
  | n + 1 =>
    let p := cnpow x n
    (x.1 * p.1 - x.2 * p.2, x.1 * p.2 + x.2 * p.1)

/-- Exact complex power with an integer exponent (the base is nonzero when
the exponent is negative). -/
def czpow (ar ai : ℚ) (n : ℤ) : Value :=
  if 0 ≤ n then
    let p := cnpow (ar, ai) n.toNat
    .complex p.1 p.2
  else
    let d := ar * ar + ai * ai
    let p := cnpow (ar / d, -ai / d) (-n).toNat
    .complex p.1 p.2

/-- Python `**` on numbers.  Two ints give an int for a nonnegative
exponent and a float for a negative one; a complex operand promotes to
complex power (exact for integer exponents, via the abstract primitive
otherwise); floats with an integral exponent are exact powers, a negative
float base with a fractional exponent raises `ValueError` in Python 2,
and the remaining float cases go through the abstract primitive.  A zero
base with a negative (or, for complex, non real) exponent raises
`ZeroDivisionError`. -/
def pyPow (M : MathLib) (a b : Value) : Except EvalErr Value :=
  match a, b with
  | .int m, .int n =>
    if 0 ≤ n then .ok (.int (m ^ n.toNat))
    else if m = 0 then .error .zeroDiv
    else .ok (.real ((m : ℚ) ^ n))
  | _, _ =>
    if a.isComplex || b.isComplex then
      match b with
      | .int n =>
        if a.re = 0 ∧ a.im = 0 then
          if n < 0 then .error .zeroDiv
          else if n = 0 then .ok (.complex 1 0)
          else .ok (.complex 0 0)
        else .ok (czpow a.re a.im n)
      | _ =>
        if a.re = 0 ∧ a.im = 0 then
          if b.re = 0 ∧ b.im = 0 then .ok (.complex 1 0)
          else if b.im = 0 ∧ 0 < b.re then .ok (.complex 0 0)
          else .error .zeroDiv
        else
          let p := M.cpow a.re a.im b.re b.im
          .ok (.complex p.1 p.2)
    else
      match b with
      | .int n =>
        if a.toQ = 0 then
          if n < 0 then .error .zeroDiv
          else if n = 0 then .ok (.real 1)
          else .ok (.real 0)
        else .ok (.real (a.toQ ^ n))
      | _ =>
        let q := a.toQ
        let p := b.toQ
        if q = 0 then
          if p < 0 then .error .zeroDiv
          else if p = 0 then .ok (.real 1)
          else .ok (.real 0)
        else if p.den = 1 then .ok (.real (q ^ p.num))
        else if q < 0 then .error .valueError
        else .ok (.real (M.fpow q p))

/-- Python unary minus on numbers. -/
def pyNeg : Value → Value
  | .int n => .int (-n)
  | .real q => .real (-q)
  | .complex a b => .complex (-a) (-b)

/-- Python `abs`: absolute value on ints and floats, modulus (through the
abstract square root) on complex numbers. -/
def pyAbsV (M : MathLib) : Value → Value
  | .int n => .int |n|
  | .real q => .real |q|
  | .complex a b => .real (M.sqrt (a * a + b * b))

/-- Python `math.factorial`: requires a nonnegative integer or integral
float, raising `ValueError` otherwise and `TypeError` on complex input. -/
def pyFact : Value → Except EvalErr Value
  | .int n =>
    if n < 0 then .error .valueError else .ok (.int (Nat.factorial n.toNat))
  | .real q =>
    if q.den = 1 then
      if q.num < 0 then .error .valueError
      else .ok (.int (Nat.factorial q.num.toNat))
    else .error .valueError
  | .complex _ _ => .error .typeError

/-- Python 2 `math.ceil`, which returns a float. -/
def pyCeil : Value → Except EvalErr Value
  | .complex _ _ => .error .typeError
  | .int n => .ok (.real (n : ℚ))
  | .real q => .ok (.real ((⌈q⌉ : ℤ) : ℚ))

/-- Python 2 `math.floor`, which returns a float. -/
def pyFloor : Value → Except EvalErr Value
  | .complex _ _ => .error .typeError
  | .int n => .ok (.real (n : ℚ))
  | .real q => .ok (.real ((⌊q⌋ : ℤ) : ℚ))

/-- Python 2 `round`: half away from zero, returning a float. -/
def pyRound : Value → Except EvalErr Value
  | .complex _ _ => .error .typeError
  | .int n => .ok (.real (n : ℚ))
  | .real q =>
    .ok (.real (if 0 ≤ q then ((⌊q + 1/2⌋ : ℤ) : ℚ) else ((⌈q - 1/2⌉ : ℤ) : ℚ)))

/-- Python `math.sin` (complex input raises `TypeError`). -/
def pySin (M : MathLib) : Value → Except EvalErr Value
  | .complex _ _ => .error .typeError
  | v => .ok (.real (M.sin v.toQ))

/-- Python `math.cos`. -/
def pyCos (M : MathLib) : Value → Except EvalErr Value
  | .complex _ _ => .error .typeError
  | v => .ok (.real (M.cos v.toQ))

/-- Python `math.tan`. -/
def pyTan (M : MathLib) : Value → Except EvalErr Value
  | .complex _ _ => .error .typeError
  | v => .ok (.real (M.tan v.toQ))

/-- Python `math.log` (natural logarithm); nonpositive input raises
`ValueError`. -/
def pyLog (M : MathLib) : Value → Except EvalErr Value
  | .complex _ _ => .error .typeError
  | v => if v.toQ ≤ 0 then .error .valueError else .ok (.real (M.log v.toQ))

/-- Python `math.log10`. -/
def pyLog10 (M : MathLib) : Value → Except EvalErr Value
  | .complex _ _ => .error .typeError
  | v => if v.toQ ≤ 0 then .error .valueError else .ok (.real (M.log10 v.toQ))

/-- The base two logarithm, which the source spells `math.log(x, 2)`. -/
def pyLog2 (M : MathLib) : Value → Except EvalErr Value
  | .complex _ _ => .error .typeError
  | v => if v.toQ ≤ 0 then .error .valueError else .ok (.real (M.log2 v.toQ))

/-- Python `math.degrees`, an exact rational scaling by `180 / pi` with
the binary64 value of `pi`. -/
def pyDegrees : Value → Except EvalErr Value
  | .complex _ _ => .error .typeError
  | v => .ok (.real (v.toQ * 180 / piFloat))

/-- Python `math.radians`. -/
def pyRadians : Value → Except EvalErr Value
  | .complex _ _ => .error .typeError
  | v => .ok (.real (v.toQ * piFloat / 180))

/-- The Python 2 `<` on numbers: numeric comparison, except that complex
operands have no ordering and raise `TypeError`. -/
def pyLt (a b : Value) : Except EvalErr Bool :=
  if a.isComplex || b.isComplex then .error .typeError
  else .ok (decide (a.toQ < b.toQ))

/-- The scanning loop of the `min` builtin: keep the smaller element,
comparing each candidate against the current minimum. -/
def pyMinGo (m : Value) : List Value → Except EvalErr Value
  | [] => .ok m
  | x :: xs => do
    let b ← pyLt x m
    pyMinGo (if b then x else m) xs

/-- Python `min` over a list; the empty list raises `ValueError`. -/
def pyMinList : List Value → Except EvalErr Value
  | [] => .error .valueError
  | v :: vs => pyMinGo v vs

/-! ## The compiler (`Code.gen`) and evaluator (`Code.run`) -/

/-- A variable environment: the strings to numbers dictionary handed to
`Code.run`. -/
abbrev Env := String → Option Value

/-- A nonempty all digits reading of a string, the relevant fragment of
the Python `int` constructor (the lexer only ever produces such texts). -/
def intText? (s : String) : Option ℤ :=
  let cs := s.toList
  if cs ≠ [] ∧ cs.all (·.isDigit) then
    some ((cs.foldl (fun n c => 10 * n + (c.toNat - '0'.toNat)) 0 : ℕ) : ℤ)
  else none

/-- The relevant fragment of the Python `float` constructor: an optional
integer part, a dot and a fraction part, read exactly as a rational. -/
def floatText? (s : String) : Option ℚ :=
  let cs := s.toList
  let ip := cs.takeWhile (· ≠ '.')
  match cs.dropWhile (· ≠ '.') with
  | '.' :: fp =>
    if (ip ≠ [] ∨ fp ≠ []) ∧ ip.all (·.isDigit) ∧ fp.all (·.isDigit) ∧
        fp.all (· ≠ '.') then
      some (((ip.foldl (fun n c => 10 * n + (c.toNat - '0'.toNat)) 0 : ℕ) : ℚ) +
        ((fp.foldl (fun n c => 10 * n + (c.toNat - '0'.toNat)) 0 : ℕ) : ℚ) /
          (10 : ℚ) ^ fp.length)
    else none
  | _ => none

/-- The numeric value of a literal, following the dispatch of `Code.gen`
on the `num` node: a text containing a dot goes through `float`, any
other through `int`. -/
def numValue? (s : String) : Option Value :=
  if s.toList.contains '.' then (floatText? s).map .real
  else (intText? s).map .int

/-- A compiled expression, mirroring class `Code`: an evaluation function
from an environment to a number and the ordered, duplicate preserving
list of referenced free variable names. -/
structure Code where
  f : Env → Except EvalErr Value
  names : List String

/-- Evaluation of a compiled expression, mirroring `Code.run`. -/
def Code.run (c : Code) (kw : Env) : Except EvalErr Value :=
  c.f kw

/-- A constant closure with no free names, the shape `cls(lambda kw: n, [])`
built for literals and the three named constants. -/
def constCode (v : Value) : Code :=
  ⟨fun _ => .ok v, []⟩

/-- An environment lookup closure, the shape `cls(lambda kw: kw[s], [s])`:
a missing key raises `KeyError` carrying the name. -/
def varCode (s : String) : Code :=
  ⟨fun kw =>
    match kw s with
    | some v => .ok v
    | none => .error (.keyError s), [s]⟩

/-- A one child closure, the shape `cls(lambda kw: op(lhs.run(kw)),
lhs.names)` shared by unary minus, factorial, absolute value and the one
argument builtins. -/
def unCode (g : Value → Except EvalErr Value) (l : Code) : Code :=
  ⟨fun kw => do
    let x ← l.f kw
    g x, l.names⟩

/-- A two child closure, the shape `cls(lambda kw: lhs.run(kw) op
rhs.run(kw), lhs.names + rhs.names)` shared by the binary operators: the
left operand is evaluated before the right one. -/
def binCode (g : Value → Value → Except EvalErr Value) (l r : Code) : Code :=
  ⟨fun kw => do
    let x ← l.f kw
    let y ← r.f kw
    g x y, l.names ++ r.names⟩

/-- The builtin functions that expect exactly one argument, with the
operation each dispatches to; this tabulates the one argument branches of
the `elif` chain in the `apply` case of `Code.gen`, which are syntactically
identical up to the applied `math` operation. -/
def unaryOp? (M : MathLib) (fn : String) : Option (Value → Except EvalErr Value) :=
  if fn = "abs" then some (fun v => .ok (pyAbsV M v))
  else if fn = "ceil" then some pyCeil
  else if fn = "cos" then some (pyCos M)
  else if fn = "degrees" then some pyDegrees
  else if fn = "floor" then some pyFloor
  else if fn = "log" then some (pyLog M)
  else if fn = "log10" then some (pyLog10 M)
  else if fn = "log2" then some (pyLog2 M)
  else if fn = "radians" then some pyRadians
  else if fn = "round" then some pyRound
  else if fn = "sin" then some (pySin M)
  else if fn = "tan" then some (pyTan M)
  else none

/-- The always binary operator nodes of `Code.gen` with their runtime
operation (`-` is dispatched separately because of its unary form). -/
def binOp? (M : MathLib) (op : String) : Option (Value → Value → Except EvalErr Value) :=
  if op = "+" then some (fun a b => .ok (pyAdd a b))
  else if op = "*" then some (fun a b => .ok (pyMul a b))
  else if op = "/" then some pyDiv
  else if op = "%" then some pyMod
  else if op = "//" then some pyFloorDiv
  else if op = "^" then some (pyPow M)
  else none

/-- Left to right evaluation of a list of compiled subexpressions, the
list comprehension inside the `max`/`min` closures. -/
def runList (cs : List Code) (kw : Env) : Except EvalErr (List Value) :=
  match cs with
  | [] => .ok []
  | c :: rest => do
    let v ← c.f kw
    let vs ← runList rest kw
    .ok (v :: vs)

/-- Concatenation of the free name lists of compiled subexpressions, the
`names.extend` loop of the `max`/`min` branches. -/
def joinNames : List Code → List String
  | [] => []
  | c :: cs => c.names ++ joinNames cs

/-- The closure built by the `max` and `min` branches: evaluate every
compiled argument left to right and take the `min` of the results (the
source dispatches `max` to `min` as well). -/
def minCode (cs : List Code) : Code :=
  ⟨fun kw => do
    let vs ← runList cs kw
    pyMinList vs, joinNames cs⟩

mutual

/-- The compiler, mirroring `Code.gen`: one pass over the AST producing a
closure and a free name list.  Number literals are parsed now (`float` if
the text has a dot, else `int`); the identifiers `e`, `pi` and `i` become
constants and every other identifier an environment lookup recording its
name; operator nodes compile their children (the first one before the
second, extra children beyond the documented arity are ignored as in the
source indexing `e.args[0]`/`e.args[1]`, and a missing child is the
`IndexError` of that indexing); an applied name resolves against the
builtin table, `max` and `min` compiling every argument and evaluating to
the `min` of the results (the source dispatches both to `min`), the one
argument builtins compiling only their first argument, and any other name
failing eagerly with the unknown function error. -/
def Code.gen (M : MathLib) : Expr → Except GenError Code
  | .num s =>
    match numValue? s with
    | some v => .ok (constCode v)
    | none => .error (.badNum s)
  | .id s =>
    if s = "e" then .ok (constCode (.real eFloat))
    else if s = "pi" then .ok (constCode (.real piFloat))
    else if s = "i" then .ok (constCode (.complex 0 1))
    else .ok (varCode s)
  | .node op args =>
    if op = "-" then
      match args with
      | [] => .error .indexError
      | [a] => do
        let lhs ← Code.gen M a
        .ok (unCode (fun x => .ok (pyNeg x)) lhs)
      | a :: b :: _ => do
        let lhs ← Code.gen M a
        let rhs ← Code.gen M b
        .ok (binCode (fun x y => .ok (pySub x y)) lhs rhs)
    else if op = "!" then
      match args with
      | [] => .error .indexError
      | a :: _ => do
        let lhs ← Code.gen M a
        .ok (unCode pyFact lhs)
    else if op = "abs" then
      match args with
      | [] => .error .indexError
      | a :: _ => do
        let lhs ← Code.gen M a
        .ok (unCode (fun x => .ok (pyAbsV M x)) lhs)
    else
      match binOp? M op with
      | some g =>
        match args with
        | [] => .error .indexError
        | [a] => do
          let _ ← Code.gen M a
          .error .indexError
        | a :: b :: _ => do
          let lhs ← Code.gen M a
          let rhs ← Code.gen M b
          .ok (binCode g lhs rhs)
      | none => .error (.cantHandle op)
  | .apply fn args =>
    if fn = "max" ∨ fn = "min" then do
      let cs ← Code.genList M args
      .ok (minCode cs)
    else
      match unaryOp? M fn with
      | some g =>
        match args with
        | [] => .error .indexError
        | a :: _ => do
          let lhs ← Code.gen M a
          .ok (unCode g lhs)
      | none => .error (.unknownFunction fn)

/-- Compilation of an argument list in order, the list comprehension of
the `max`/`min` branches. -/
def Code.genList (M : MathLib) : List Expr → Except GenError (List Code)
  | [] => .ok []
  | e :: es => do
    let c ← Code.gen M e
    let cs ← Code.genList M es
    .ok (c :: cs)

end

/-- The pipeline of the command line entry point: parse the input, compile
the AST and evaluate against the environment, collapsing the three failure
modes to `none`. -/
def runText (M : MathLib) (s : String) (kw : Env) : Option Value :=
  match parse s with
  | .error _ => none
  | .ok e =>
    match Code.gen M e with
    | .error _ => none
    | .ok c =>
      match c.run kw with
      | .error _ => none
      | .ok v => some v

/-! ## Static views of the AST used by the statements below -/

/-- The builtin functions that expect exactly one argument, in the order
of the dispatch chain. -/
def oneArgBuiltins : List String :=
  ["abs", "ceil", "cos", "degrees", "floor", "log", "log10", "log2",
   "radians", "round", "sin", "tan"]

/-- The fixed closed set of builtin function names. -/
def builtinNames : List String :=
  ["abs", "ceil", "cos", "degrees", "floor", "log", "log10", "log2",
   "max", "min", "radians", "round", "sin", "tan"]

/-- The documented child arity of each operator tag (section 3 of the
specification): binary operators take two children, unary minus one or
two (the tag `-` covers both forms), factorial and absolute value one. -/
def nodeArity (op : String) (n : Nat) : Bool :=
  if op = "-" then n == 1 || n == 2
  else if op = "!" ∨ op = "abs" then n == 1
  else if op = "+" ∨ op = "*" ∨ op = "/" ∨ op = "%" ∨ op = "//" ∨ op = "^" then
    n == 2
  else false

mutual

/-- Well formedness of an AST: every numeric literal text is readable,
every operator node has its documented arity, and every application of a
one argument builtin carries exactly one argument.  The parser only
produces such trees apart from the last condition, which it can violate
by supplying extra call arguments. -/
def wfExpr : Expr → Bool
  | .num s => (numValue? s).isSome
  | .id _ => true
  | .node op args => nodeArity op args.length && wfList args
  | .apply fn args =>
    (!(decide (fn ∈ oneArgBuiltins)) || args.length == 1) && wfList args

/-- Well formedness of every tree in a list. -/
def wfList : List Expr → Bool
  | [] => true
  | e :: es => wfExpr e && wfList es

end

mutual

/-- The names applied anywhere in a tree that lie outside the builtin
set, in preorder. -/
def unknownCalls : Expr → List String
  | .num _ => []
  | .id _ => []
  | .node _ args => unknownCallsList args
  | .apply fn args =>
    (if fn ∈ builtinNames then [] else [fn]) ++ unknownCallsList args

/-- The unknown applied names of every tree in a list. -/
def unknownCallsList : List Expr → List String
  | [] => []
  | e :: es => unknownCalls e ++ unknownCallsList es

end

mutual

/-- Modelled from the spec: the free variable name list as section 4.3
describes it, a flat concatenation of the children's lists in left to
right construction order, preserving duplicates, where constants and
literals contribute no names.  Stated from the specification wording to
compare against the list `Code.gen` actually builds. -/
def flatNames : Expr → List String
  | .num _ => []
  | .id s => if s = "e" ∨ s = "pi" ∨ s = "i" then [] else [s]
  | .node _ args => flatNamesList args
  | .apply _ args => flatNamesList args

/-- Concatenated name lists of a list of children. -/
def flatNamesList : List Expr → List String
  | [] => []
  | e :: es => flatNames e ++ flatNamesList es

end

/-- The three properties of a compiled expression that the evaluation
claims rest on: its free name list never contains the constant
identifiers `e`, `pi`, `i`; its evaluation depends on the environment
only at its free names; and evaluating against an environment missing one
of its free names fails with some error. -/
def RunsOk (c : Code) : Prop :=
  (∀ s, s ∈ c.names → s ≠ "e" ∧ s ≠ "pi" ∧ s ≠ "i") ∧
  (∀ env env2 : Env, (∀ s, s ∈ c.names → env s = env2 s) →
    c.f env = c.f env2) ∧
  (∀ (s : String) (env : Env), s ∈ c.names → env s = none →
    ∃ err, c.f env = .error err)

/-- Size bound for list members, used by the induction principle. -/
theorem sizeOf_lt_of_mem_list [SizeOf α] {a : α} :
    ∀ {l : List α}, a ∈ l → sizeOf a < sizeOf l := by
  intro l h
  induction l with
  | nil => cases h
  | cons x xs ih =>
    rcases List.mem_cons.mp h with h1 | h1
    · subst h1; simp; omega
    · have := ih h1; simp; omega

/-- Structural induction over the nested AST type, giving the inductive
hypothesis for every member of a child list. -/
theorem exprInduction (P : Expr → Prop)
    (hnum : ∀ s, P (.num s)) (hid : ∀ s, P (.id s))
    (hnode : ∀ op args, (∀ a, a ∈ args → P a) → P (.node op args))
    (happ : ∀ fn args, (∀ a, a ∈ args → P a) → P (.apply fn args)) :
    ∀ e, P e := by
  have key : ∀ n, ∀ e : Expr, sizeOf e ≤ n → P e := by
    intro n
    induction n with
    | zero =>
      intro e h
      cases e <;> simp at h
    | succ n ih =>
      intro e h
      cases e with
      | num s => exact hnum s
      | id s => exact hid s
      | node op args =>
        refine hnode op args fun a ha => ih a ?_
        have h1 := sizeOf_lt_of_mem_list ha
        simp at h
        omega
      | apply fn args =>
        refine happ fn args fun a ha => ih a ?_
        have h1 := sizeOf_lt_of_mem_list ha
        simp at h
        omega
  exact fun e => key (sizeOf e) e le_rfl

/-! ## Facts about `Except` bind and the list helpers -/

/-- Reduction of `Except` bind on a success, used throughout. -/
@[simp] theorem ok_bind {ε α β : Type} (a : α) (g : α → Except ε β) :
    (Except.ok a >>= g) = g a := rfl

/-- Reduction of `Except` bind on a failure, used throughout. -/
@[simp] theorem error_bind {ε α β : Type} (err : ε) (g : α → Except ε β) :
    ((Except.error err : Except ε α) >>= g) = .error err := rfl

/-- Inversion of `Except` bind on a success. -/
theorem bind_eq_ok {ε α β : Type} {x : Except ε α} {g : α → Except ε β}
    {b : β} (h : (x >>= g) = .ok b) : ∃ a, x = .ok a ∧ g a = .ok b := by
  cases x with
  | error e => simp at h
  | ok a => exact ⟨a, rfl, by simpa using h⟩

/-- Inversion of `Except` bind on a failure. -/
theorem bind_eq_error {ε α β : Type} {x : Except ε α} {g : α → Except ε β}
    {err : ε} (h : (x >>= g) = .error err) :
    x = .error err ∨ ∃ a, x = .ok a ∧ g a = .error err := by
  cases x with
  | error e =>
    simp at h
    exact Or.inl (by rw [h])
  | ok a => exact Or.inr ⟨a, rfl, by simpa using h⟩

/-- A name in a concatenated name list comes from one of the codes. -/
theorem mem_joinNames {s : String} :
    ∀ {cs : List Code}, s ∈ joinNames cs → ∃ c, c ∈ cs ∧ s ∈ c.names := by
  intro cs
  induction cs with
  | nil => intro h; simp [joinNames] at h
  | cons c cs ih =>
    intro h
    rcases List.mem_append.mp (by simpa [joinNames] using h) with h1 | h1
    · exact ⟨c, List.mem_cons_self _ _, h1⟩
    · rcases ih h1 with ⟨c2, hc2, hs⟩
      exact ⟨c2, List.mem_cons_of_mem _ hc2, hs⟩

/-- A name of a member code lies in the concatenated name list. -/
theorem mem_joinNames_of :
    ∀ {cs : List Code} {c : Code} {s : String}, c ∈ cs → s ∈ c.names →
      s ∈ joinNames cs := by
  intro cs
  induction cs with
  | nil => intro c s hc _; cases hc
  | cons c0 cs ih =>
    intro c s hc hs
    rcases List.mem_cons.mp hc with rfl | hc2
    · simp only [joinNames]
      exact List.mem_append.mpr (Or.inl hs)
    · simp only [joinNames]
      exact List.mem_append.mpr (Or.inr (ih hc2 hs))

/-- Evaluating a list of codes is unchanged when every member evaluates
unchanged. -/
theorem runList_congr :
    ∀ (cs : List Code) (env env2 : Env),
      (∀ c, c ∈ cs → c.f env = c.f env2) →
      runList cs env = runList cs env2 := by
  intro cs
  induction cs with
  | nil => intro env env2 _; rfl
  | cons c cs ih =>
    intro env env2 h
    simp only [runList]
    rw [h c (List.mem_cons_self _ _),
      ih env env2 fun c2 hc2 => h c2 (List.mem_cons_of_mem _ hc2)]

/-- Evaluating a list of codes fails when some member fails. -/
theorem runList_err :
    ∀ (cs : List Code) (env : Env) (c : Code), c ∈ cs →
      (∃ err, c.f env = .error err) →
      ∃ err2, runList cs env = .error err2 := by
  intro cs
  induction cs with
  | nil => intro env c hc _; cases hc
  | cons c0 cs ih =>
    intro env c hc he
    cases hf : c0.f env with
    | error err => exact ⟨err, by simp [runList, hf]⟩
    | ok v =>
      rcases List.mem_cons.mp hc with rfl | hc2
      · rcases he with ⟨err, he⟩
        rw [he] at hf
        cases hf
      · rcases ih env c hc2 he with ⟨err, hrl⟩
        exact ⟨err, by simp [runList, hf, hrl]⟩

/-! ## Inversion of the compiler on each node shape -/

/-- Inversion of `Code.gen` on a number literal. -/
theorem gen_num_inv {M : MathLib} {s : String} {c : Code}
    (h : Code.gen M (.num s) = .ok c) :
    ∃ v, numValue? s = some v ∧ c = constCode v := by
  replace h : (match numValue? s with
    | some v => Except.ok (constCode v)
    | none => Except.error (GenError.badNum s)) = Except.ok c := h
  cases hv : numValue? s with
  | none => rw [hv] at h; exact Except.noConfusion h
  | some v => rw [hv] at h; exact ⟨v, rfl, (Except.ok.inj h).symm⟩

/-- Inversion of `Code.gen` on an identifier. -/
theorem gen_id_inv {M : MathLib} {s : String} {c : Code}
    (h : Code.gen M (.id s) = .ok c) :
    (s = "e" ∧ c = constCode (.real eFloat)) ∨
    (s = "pi" ∧ c = constCode (.real piFloat)) ∨
    (s = "i" ∧ c = constCode (.complex 0 1)) ∨
    (s ≠ "e" ∧ s ≠ "pi" ∧ s ≠ "i" ∧ c = varCode s) := by
  replace h : (if s = "e" then Except.ok (constCode (.real eFloat))
    else if s = "pi" then Except.ok (constCode (.real piFloat))
    else if s = "i" then Except.ok (constCode (.complex 0 1))
    else Except.ok (varCode s)) = Except.ok c := h
  by_cases h1 : s = "e"
  · rw [if_pos h1] at h
    exact Or.inl ⟨h1, (Except.ok.inj h).symm⟩
  rw [if_neg h1] at h
  by_cases h2 : s = "pi"
  · rw [if_pos h2] at h
    exact Or.inr (Or.inl ⟨h2, (Except.ok.inj h).symm⟩)
  rw [if_neg h2] at h
  by_cases h3 : s = "i"
  · rw [if_pos h3] at h
    exact Or.inr (Or.inr (Or.inl ⟨h3, (Except.ok.inj h).symm⟩))
  rw [if_neg h3] at h
  exact Or.inr (Or.inr (Or.inr ⟨h1, h2, h3, (Except.ok.inj h).symm⟩))

/-- Inversion of `Code.gen` on an operator node. -/
theorem gen_node_inv {M : MathLib} {op : String} {args : List Expr} {c : Code}
    (h : Code.gen M (.node op args) = .ok c) :
    (∃ a l, op = "-" ∧ args = [a] ∧ Code.gen M a = .ok l ∧
      c = unCode (fun x => .ok (pyNeg x)) l) ∨
    (∃ a b rest l r, op = "-" ∧ args = a :: b :: rest ∧
      Code.gen M a = .ok l ∧ Code.gen M b = .ok r ∧
      c = binCode (fun x y => .ok (pySub x y)) l r) ∨
    (∃ a rest l, op = "!" ∧ args = a :: rest ∧ Code.gen M a = .ok l ∧
      c = unCode pyFact l) ∨
    (∃ a rest l, op = "abs" ∧ args = a :: rest ∧ Code.gen M a = .ok l ∧
      c = unCode (fun x => .ok (pyAbsV M x)) l) ∨
    (∃ g a b rest l r, binOp? M op = some g ∧ args = a :: b :: rest ∧
      Code.gen M a = .ok l ∧ Code.gen M b = .ok r ∧ c = binCode g l r) := by
  by_cases h1 : op = "-"
  · subst h1
    rw [Code.gen.eq_def] at h
    rcases args with _ | ⟨a, _ | ⟨b, rest⟩⟩
    · simp at h
    · simp only [reduceIte] at h
      rcases bind_eq_ok h with ⟨l, hl, h2⟩
      exact Or.inl ⟨a, l, rfl, rfl, hl, (Except.ok.inj h2).symm⟩
    · simp only [reduceIte] at h
      rcases bind_eq_ok h with ⟨l, hl, h2⟩
      rcases bind_eq_ok h2 with ⟨r, hr, h3⟩
      exact Or.inr (Or.inl
        ⟨a, b, rest, l, r, rfl, rfl, hl, hr, (Except.ok.inj h3).symm⟩)
  by_cases h2 : op = "!"
  · subst h2
    rw [Code.gen.eq_def] at h
    rcases args with _ | ⟨a, rest⟩
    · simp at h
    · simp only [reduceIte] at h
      rcases bind_eq_ok h with ⟨l, hl, h3⟩
      exact Or.inr (Or.inr (Or.inl
        ⟨a, rest, l, rfl, rfl, hl, (Except.ok.inj h3).symm⟩))
  by_cases h3 : op = "abs"
  · subst h3
    rw [Code.gen.eq_def] at h
    rcases args with _ | ⟨a, rest⟩
    · simp at h
    · simp only [reduceIte] at h
      rcases bind_eq_ok h with ⟨l, hl, h4⟩
      exact Or.inr (Or.inr (Or.inr (Or.inl
        ⟨a, rest, l, rfl, rfl, hl, (Except.ok.inj h4).symm⟩)))
  · rw [Code.gen.eq_def] at h
    simp only [if_neg h1, if_neg h2, if_neg h3] at h
    cases hg : binOp? M op with
    | none => rw [hg] at h; exact absurd h (by simp)
    | some g =>
      rw [hg] at h
      rcases args with _ | ⟨a, _ | ⟨b, rest⟩⟩
      · exact absurd h (by simp)
      · rcases bind_eq_ok h with ⟨l, _, h4⟩
        exact absurd h4 (by simp)
      · rcases bind_eq_ok h with ⟨l, hl, h4⟩
        rcases bind_eq_ok h4 with ⟨r, hr, h5⟩
        exact Or.inr (Or.inr (Or.inr (Or.inr
          ⟨g, a, b, rest, l, r, rfl, rfl, hl, hr, (Except.ok.inj h5).symm⟩)))

/-- Inversion of `Code.gen` on a function application. -/
theorem gen_apply_inv {M : MathLib} {fn : String} {args : List Expr}
    {c : Code} (h : Code.gen M (.apply fn args) = .ok c) :
    ((fn = "max" ∨ fn = "min") ∧
      ∃ cs, Code.genList M args = .ok cs ∧ c = minCode cs) ∨
    (¬(fn = "max" ∨ fn = "min") ∧
      ∃ g a rest l, unaryOp? M fn = some g ∧ args = a :: rest ∧
        Code.gen M a = .ok l ∧ c = unCode g l) := by
  rw [Code.gen.eq_def] at h
  by_cases hmm : fn = "max" ∨ fn = "min"
  · simp only [if_pos hmm] at h
    rcases bind_eq_ok h with ⟨cs, hcs, h2⟩
    exact Or.inl ⟨hmm, cs, hcs, (Except.ok.inj h2).symm⟩
  · simp only [if_neg hmm] at h
    cases hg : unaryOp? M fn with
    | none => rw [hg] at h; exact absurd h (by simp)
    | some g =>
      rw [hg] at h
      rcases args with _ | ⟨a, rest⟩
      · exact absurd h (by simp)
      · rcases bind_eq_ok h with ⟨l, hl, h2⟩
        exact Or.inr
          ⟨hmm, g, a, rest, l, rfl, rfl, hl, (Except.ok.inj h2).symm⟩

/-- Inversion of `Code.genList`: the codes compile the expressions
pointwise. -/
theorem genList_inv {M : MathLib} :
    ∀ {es : List Expr} {cs : List Code}, Code.genList M es = .ok cs →
      List.Forall₂ (fun e c => Code.gen M e = .ok c) es cs := by
  intro es
  induction es with
  | nil =>
    intro cs h
    simp [Code.genList] at h
    subst h
    constructor
  | cons e es ih =>
    intro cs h
    simp only [Code.genList] at h
    rcases bind_eq_ok h with ⟨c0, hc0, h2⟩
    rcases bind_eq_ok h2 with ⟨cs0, hcs0, h3⟩
    simp at h3
    rw [← h3]
    exact List.Forall₂.cons hc0 (ih hcs0)

/-- Every member of the right list of a `Forall₂` is related to a member
of the left one. -/
theorem forall2_mem_right {α β : Type} {R : α → β → Prop} :
    ∀ {as : List α} {bs : List β}, List.Forall₂ R as bs →
      ∀ {b}, b ∈ bs → ∃ a, a ∈ as ∧ R a b := by
  intro as bs h
  induction h with
  | nil => intro b hb; cases hb
  | cons hr hrest ih =>
    intro b hb
    rcases List.mem_cons.mp hb with rfl | hb2
    · exact ⟨_, List.mem_cons_self _ _, hr⟩
    · rcases ih hb2 with ⟨a, ha, hr2⟩
      exact ⟨a, List.mem_cons_of_mem _ ha, hr2⟩

/-! ## The evaluation properties hold for every compiled expression -/

/-- A constant closure satisfies the evaluation properties. -/
theorem runsOk_const (v : Value) : RunsOk (constCode v) := by
  refine ⟨?_, ?_, ?_⟩ <;> intro s hs <;> simp [constCode] at hs ⊢

/-- A lookup closure of a non constant name satisfies them. -/
theorem runsOk_var {s : String} (h : s ≠ "e" ∧ s ≠ "pi" ∧ s ≠ "i") :
    RunsOk (varCode s) := by
  refine ⟨?_, ?_, ?_⟩
  · intro t ht
    simp [varCode] at ht
    rw [ht]
    exact h
  · intro env env2 hagree
    have heq := hagree s (by simp [varCode])
    simp [varCode, heq]
  · intro t env ht hnone
    simp [varCode] at ht
    subst ht
    exact ⟨.keyError t, by simp [varCode, hnone]⟩

/-- The one child closure preserves the evaluation properties. -/
theorem runsOk_un {g : Value → Except EvalErr Value} {l : Code}
    (hl : RunsOk l) : RunsOk (unCode g l) := by
  obtain ⟨h1, h2, h3⟩ := hl
  refine ⟨?_, ?_, ?_⟩
  · intro s hs
    exact h1 s (by simpa [unCode] using hs)
  · intro env env2 hagree
    have heq := h2 env env2 fun s hs => hagree s (by simpa [unCode] using hs)
    simp [unCode, heq]
  · intro s env hs hnone
    rcases h3 s env (by simpa [unCode] using hs) hnone with ⟨err, herr⟩
    exact ⟨err, by simp [unCode, herr]⟩

/-- The two child closure preserves the evaluation properties. -/
theorem runsOk_bin {g : Value → Value → Except EvalErr Value} {l r : Code}
    (hl : RunsOk l) (hr : RunsOk r) : RunsOk (binCode g l r) := by
  obtain ⟨hl1, hl2, hl3⟩ := hl
  obtain ⟨hr1, hr2, hr3⟩ := hr
  refine ⟨?_, ?_, ?_⟩
  · intro s hs
    rcases List.mem_append.mp (by simpa [binCode] using hs) with h | h
    exacts [hl1 s h, hr1 s h]
  · intro env env2 hagree
    have h4 := hl2 env env2 fun s hs =>
      hagree s (by simp [binCode]; exact Or.inl hs)
    have h5 := hr2 env env2 fun s hs =>
      hagree s (by simp [binCode]; exact Or.inr hs)
    simp [binCode, h4, h5]
  · intro s env hs hnone
    rcases List.mem_append.mp (by simpa [binCode] using hs) with h | h
    · rcases hl3 s env h hnone with ⟨err, herr⟩
      exact ⟨err, by simp [binCode, herr]⟩
    · cases hf : l.f env with
      | error err => exact ⟨err, by simp [binCode, hf]⟩
      | ok v =>
        rcases hr3 s env h hnone with ⟨err, herr⟩
        exact ⟨err, by simp [binCode, hf, herr]⟩

/-- The `max`/`min` closure preserves the evaluation properties. -/
theorem runsOk_min {cs : List Code} (h : ∀ c, c ∈ cs → RunsOk c) :
    RunsOk (minCode cs) := by
  refine ⟨?_, ?_, ?_⟩
  · intro s hs
    rcases mem_joinNames (by simpa [minCode] using hs) with ⟨c, hc, hsc⟩
    exact (h c hc).1 s hsc
  · intro env env2 hagree
    have heq : runList cs env = runList cs env2 := by
      refine runList_congr cs env env2 fun c hc => ?_
      exact (h c hc).2.1 env env2 fun s hs =>
        hagree s (by simpa [minCode] using mem_joinNames_of hc hs)
    simp [minCode, heq]
  · intro s env hs hnone
    rcases mem_joinNames (by simpa [minCode] using hs) with ⟨c, hc, hsc⟩
    rcases runList_err cs env c hc ((h c hc).2.2 s env hsc hnone) with ⟨err, hrl⟩
    exact ⟨err, by simp [minCode, hrl]⟩

/-- Every code produced by the compiler satisfies the evaluation
properties: its free name list avoids the constant identifiers, its
evaluation reads the environment only at its free names, and a missing
free name makes evaluation fail. -/
theorem gen_runsOk (M : MathLib) :
    ∀ e c, Code.gen M e = .ok c → RunsOk c := by
  refine exprInduction (fun e => ∀ c, Code.gen M e = .ok c → RunsOk c)
    ?_ ?_ ?_ ?_
  · intro s c h
    rcases gen_num_inv h with ⟨v, _, rfl⟩
    exact runsOk_const v
  · intro s c h
    rcases gen_id_inv h with ⟨_, rfl⟩ | ⟨_, rfl⟩ | ⟨_, rfl⟩ | ⟨h1, h2, h3, rfl⟩
    · exact runsOk_const _
    · exact runsOk_const _
    · exact runsOk_const _
    · exact runsOk_var ⟨h1, h2, h3⟩
  · intro op args ih c h
    rcases gen_node_inv h with
      ⟨a, l, _, ha, hl, rfl⟩ | ⟨a, b, rest, l, r, _, ha, hl, hr, rfl⟩ |
      ⟨a, rest, l, _, ha, hl, rfl⟩ | ⟨a, rest, l, _, ha, hl, rfl⟩ |
      ⟨g, a, b, rest, l, r, _, ha, hl, hr, rfl⟩
    · exact runsOk_un (ih a (by rw [ha]; exact List.mem_cons_self _ _) l hl)
    · exact runsOk_bin
        (ih a (by rw [ha]; exact List.mem_cons_self _ _) l hl)
        (ih b (by rw [ha]; exact List.mem_cons_of_mem _ (List.mem_cons_self _ _)) r hr)
    · exact runsOk_un (ih a (by rw [ha]; exact List.mem_cons_self _ _) l hl)
    · exact runsOk_un (ih a (by rw [ha]; exact List.mem_cons_self _ _) l hl)
    · exact runsOk_bin
        (ih a (by rw [ha]; exact List.mem_cons_self _ _) l hl)
        (ih b (by rw [ha]; exact List.mem_cons_of_mem _ (List.mem_cons_self _ _)) r hr)
  · intro fn args ih c h
    rcases gen_apply_inv h with ⟨_, cs, hcs, rfl⟩ | ⟨_, g, a, rest, l, _, ha, hl, rfl⟩
    · refine runsOk_min fun c0 hc0 => ?_
      rcases forall2_mem_right (genList_inv hcs) hc0 with ⟨e0, he0, hgen⟩
      exact ih e0 he0 c0 hgen
    · exact runsOk_un (ih a (by rw [ha]; exact List.mem_cons_self _ _) l hl)

/-! ## The free name list against the specification description -/

/-- Members of a well formed list are well formed. -/
theorem wfList_mem : ∀ {es : List Expr}, wfList es = true →
    ∀ {e}, e ∈ es → wfExpr e = true := by
  intro es
  induction es with
  | nil => intro _ e he; cases he
  | cons e0 es ih =>
    intro h e he
    simp only [wfList, Bool.and_eq_true] at h
    rcases List.mem_cons.mp he with rfl | he2
    · exact h.1
    · exact ih h.2 he2

/-- A tag recognised by the binary operator dispatch table is one of the
six always binary operators. -/
theorem binOp?_some {M : MathLib} {op : String} {g}
    (h : binOp? M op = some g) :
    op = "+" ∨ op = "*" ∨ op = "/" ∨ op = "%" ∨ op = "//" ∨ op = "^" := by
  by_contra hc
  push_neg at hc
  obtain ⟨h1, h2, h3, h4, h5, h6⟩ := hc
  simp [binOp?, h1, h2, h3, h4, h5, h6] at h

/-- A name recognised by the one argument dispatch table is a one
argument builtin. -/
theorem unaryOp?_some {M : MathLib} {fn : String} {g}
    (h : unaryOp? M fn = some g) : fn ∈ oneArgBuiltins := by
  by_contra hc
  simp only [oneArgBuiltins, List.mem_cons, List.not_mem_nil, or_false] at hc
  push_neg at hc
  obtain ⟨h1, h2, h3, h4, h5, h6, h7, h8, h9, h10, h11, h12⟩ := hc
  simp [unaryOp?, h1, h2, h3, h4, h5, h6, h7, h8, h9, h10, h11, h12] at h

/-- A name outside the one argument builtins is not in the dispatch
table. -/
theorem unaryOp?_none {M : MathLib} {fn : String}
    (h : fn ∉ oneArgBuiltins) : unaryOp? M fn = none := by
  simp only [oneArgBuiltins, List.mem_cons, List.not_mem_nil, or_false] at h
  push_neg at h
  obtain ⟨h1, h2, h3, h4, h5, h6, h7, h8, h9, h10, h11, h12⟩ := h
  simp [unaryOp?, h1, h2, h3, h4, h5, h6, h7, h8, h9, h10, h11, h12]

/-- Every one argument builtin has an entry in the dispatch table. -/
theorem unaryOp?_of {M : MathLib} {fn : String} (h : fn ∈ oneArgBuiltins) :
    ∃ g, unaryOp? M fn = some g := by
  fin_cases h <;> exact ⟨_, rfl⟩

/-- A builtin other than `max` and `min` is a one argument builtin. -/
theorem mem_oneArg_of_builtin {fn : String} (hb : fn ∈ builtinNames)
    (hmm : ¬(fn = "max" ∨ fn = "min")) : fn ∈ oneArgBuiltins := by
  obtain ⟨hmax, hmin⟩ := not_or.mp hmm
  simp only [builtinNames, List.mem_cons, List.not_mem_nil, or_false] at hb
  rcases hb with rfl | rfl | rfl | rfl | rfl | rfl | rfl | rfl | rfl | rfl |
    rfl | rfl | rfl | rfl <;>
    first
      | decide
      | exact absurd rfl hmax
      | exact absurd rfl hmin

/-- Pointwise equal name lists concatenate to the specification list. -/
theorem joinNames_flat {M : MathLib} :
    ∀ {es : List Expr} {cs : List Code},
      List.Forall₂ (fun e c => Code.gen M e = .ok c) es cs →
      (∀ e, e ∈ es → wfExpr e = true →
        ∀ c, Code.gen M e = .ok c → c.names = flatNames e) →
      wfList es = true → joinNames cs = flatNamesList es := by
  intro es cs h
  induction h with
  | nil => intro _ _; rfl
  | @cons e c es2 cs2 hr hrest ih =>
    intro hih hwf
    simp only [wfList, Bool.and_eq_true] at hwf
    simp only [joinNames, flatNamesList]
    rw [hih e (List.mem_cons_self _ _) hwf.1 c hr,
      ih (fun e2 he2 => hih e2 (List.mem_cons_of_mem _ he2)) hwf.2]

/-- On a well formed AST the compiled free name list is exactly the flat
left to right concatenation of the children's lists described in the
specification, with constants and literals contributing nothing. -/
theorem gen_names_flat (M : MathLib) :
    ∀ e, wfExpr e = true → ∀ c, Code.gen M e = .ok c →
      c.names = flatNames e := by
  refine exprInduction
    (fun e => wfExpr e = true → ∀ c, Code.gen M e = .ok c →
      c.names = flatNames e) ?_ ?_ ?_ ?_
  · intro s _ c h
    rcases gen_num_inv h with ⟨v, _, rfl⟩
    simp [constCode, flatNames]
  · intro s _ c h
    rcases gen_id_inv h with ⟨h1, rfl⟩ | ⟨h1, rfl⟩ | ⟨h1, rfl⟩ |
      ⟨h1, h2, h3, rfl⟩
    · simp [constCode, flatNames, h1]
    · simp [constCode, flatNames, h1]
    · simp [constCode, flatNames, h1]
    · simp [varCode, flatNames, h1, h2, h3]
  · intro op args ih hwf c h
    simp only [wfExpr, Bool.and_eq_true] at hwf
    obtain ⟨harity, hwfl⟩ := hwf
    rcases gen_node_inv h with
      ⟨a, l, hop, ha, hl, rfl⟩ | ⟨a, b, rest, l, r, hop, ha, hl, hr, rfl⟩ |
      ⟨a, rest, l, hop, ha, hl, rfl⟩ | ⟨a, rest, l, hop, ha, hl, rfl⟩ |
      ⟨g, a, b, rest, l, r, hg, ha, hl, hr, rfl⟩
    · subst ha
      have e1 := ih a (List.mem_cons_self _ _)
        (wfList_mem hwfl (List.mem_cons_self _ _)) l hl
      simp [unCode, flatNames, flatNamesList, e1]
    · subst hop ha
      have hrest : rest = [] := by
        simp [nodeArity] at harity
        exact harity
      subst hrest
      have e1 := ih a (by simp) (wfList_mem hwfl (by simp)) l hl
      have e2 := ih b (by simp) (wfList_mem hwfl (by simp)) r hr
      simp [binCode, flatNames, flatNamesList, e1, e2]
    · subst hop ha
      have hrest : rest = [] := by
        simp [nodeArity] at harity
        exact harity
      subst hrest
      have e1 := ih a (by simp) (wfList_mem hwfl (by simp)) l hl
      simp [unCode, flatNames, flatNamesList, e1]
    · subst hop ha
      have hrest : rest = [] := by
        simp [nodeArity] at harity
        exact harity
      subst hrest
      have e1 := ih a (by simp) (wfList_mem hwfl (by simp)) l hl
      simp [unCode, flatNames, flatNamesList, e1]
    · subst ha
      have hrest : rest = [] := by
        rcases binOp?_some hg with rfl | rfl | rfl | rfl | rfl | rfl <;>
          (simp [nodeArity] at harity; exact harity)
      subst hrest
      have e1 := ih a (by simp) (wfList_mem hwfl (by simp)) l hl
      have e2 := ih b (by simp) (wfList_mem hwfl (by simp)) r hr
      simp [binCode, flatNames, flatNamesList, e1, e2]
  · intro fn args ih hwf c h
    simp only [wfExpr, Bool.and_eq_true] at hwf
    obtain ⟨harity, hwfl⟩ := hwf
    rcases gen_apply_inv h with ⟨hmm, cs, hcs, rfl⟩ |
      ⟨hmm, g, a, rest, l, hg, ha, hl, rfl⟩
    · have heq := joinNames_flat (genList_inv hcs)
        (fun e he hwfe c2 hc2 => ih e he hwfe c2 hc2) hwfl
      simp [minCode, flatNames, heq]
    · subst ha
      have hone := unaryOp?_some hg
      have hrest : rest = [] := by
        simp [hone] at harity
        exact harity
      subst hrest
      have e1 := ih a (by simp) (wfList_mem hwfl (by simp)) l hl
      simp [unCode, flatNames, flatNamesList, e1]

/-! ## Eager detection of unknown functions -/

/-- Members of a list with no unknown calls have no unknown calls. -/
theorem unknownCallsList_mem_nil : ∀ {es : List Expr},
    unknownCallsList es = [] → ∀ {e}, e ∈ es → unknownCalls e = [] := by
  intro es
  induction es with
  | nil => intro _ e he; cases he
  | cons e0 es ih =>
    intro h e he
    simp only [unknownCallsList, List.append_eq_nil] at h
    rcases List.mem_cons.mp he with rfl | he2
    · exact h.1
    · exact ih h.2 he2

/-- An unknown call of a member is an unknown call of the list. -/
theorem mem_unknownCallsList : ∀ {es : List Expr} {e : Expr} {g : String},
    e ∈ es → g ∈ unknownCalls e → g ∈ unknownCallsList es := by
  intro es
  induction es with
  | nil => intro e g he; cases he
  | cons e0 es ih =>
    intro e g he hg
    rcases List.mem_cons.mp he with rfl | he2
    · exact List.mem_append.mpr (Or.inl hg)
    · exact List.mem_append.mpr (Or.inr (ih he2 hg))

/-- An unknown call of a list is an unknown call of some member. -/
theorem unknownCallsList_mem : ∀ {es : List Expr} {g : String},
    g ∈ unknownCallsList es → ∃ e, e ∈ es ∧ g ∈ unknownCalls e := by
  intro es
  induction es with
  | nil => intro g hg; simp [unknownCallsList] at hg
  | cons e0 es ih =>
    intro g hg
    rcases List.mem_append.mp (by simpa [unknownCallsList] using hg) with h | h
    · exact ⟨e0, List.mem_cons_self _ _, h⟩
    · rcases ih h with ⟨e, he, hg2⟩
      exact ⟨e, List.mem_cons_of_mem _ he, hg2⟩

/-- Unknown call names lie outside the builtin set. -/
theorem mem_unknownCalls_not_builtin :
    ∀ e {g : String}, g ∈ unknownCalls e → g ∉ builtinNames := by
  refine exprInduction (fun e => ∀ {g}, g ∈ unknownCalls e → g ∉ builtinNames)
    ?_ ?_ ?_ ?_
  · intro s g hg; simp [unknownCalls] at hg
  · intro s g hg; simp [unknownCalls] at hg
  · intro op args ih g hg
    rcases unknownCallsList_mem (by simpa [unknownCalls] using hg) with
      ⟨e0, he0, hge0⟩
    exact ih e0 he0 hge0
  · intro fn args ih g hg
    simp only [unknownCalls] at hg
    rcases List.mem_append.mp hg with h1 | h1
    · by_cases hb : fn ∈ builtinNames
      · simp [hb] at h1
      · simp [hb] at h1
        subst h1
        exact hb
    · rcases unknownCallsList_mem h1 with ⟨e0, he0, hge0⟩
      exact ih e0 he0 hge0

/-- The first member of a list carrying an unknown call, with every
earlier member free of them. -/
theorem firstUnknown : ∀ {es : List Expr}, unknownCallsList es ≠ [] →
    ∃ pre e post, es = pre ++ e :: post ∧
      (∀ p, p ∈ pre → unknownCalls p = []) ∧ unknownCalls e ≠ [] := by
  intro es
  induction es with
  | nil => intro h; simp [unknownCallsList] at h
  | cons e es ih =>
    intro h
    by_cases he : unknownCalls e = []
    · have h2 : unknownCallsList es ≠ [] := by
        intro hnil
        exact h (by simp [unknownCallsList, he, hnil])
      rcases ih h2 with ⟨pre, e0, post, heq, hpre, he0⟩
      refine ⟨e :: pre, e0, post, by simp [heq], ?_, he0⟩
      intro p hp
      rcases List.mem_cons.mp hp with rfl | hp2
      · exact he
      · exact hpre p hp2
    · exact ⟨[], e, es, rfl, fun p hp => absurd hp (List.not_mem_nil p), he⟩

/-- Compilation of an argument list succeeds when every member
compiles. -/
theorem genList_total {M : MathLib} :
    ∀ {es : List Expr}, (∀ e, e ∈ es → ∃ c, Code.gen M e = .ok c) →
      ∃ cs, Code.genList M es = .ok cs := by
  intro es
  induction es with
  | nil => intro _; exact ⟨[], rfl⟩
  | cons e es ih =>
    intro h
    rcases h e (List.mem_cons_self _ _) with ⟨c, hc⟩
    rcases ih (fun e2 he2 => h e2 (List.mem_cons_of_mem _ he2)) with ⟨cs, hcs⟩
    exact ⟨c :: cs, by simp [Code.genList, hc, hcs]⟩

/-- Compilation of an argument list propagates the error of the first
failing member when the earlier ones compile. -/
theorem genList_err {M : MathLib} :
    ∀ (pre : List Expr) (e : Expr) (post : List Expr) (err : GenError),
      (∀ p, p ∈ pre → ∃ c, Code.gen M p = .ok c) →
      Code.gen M e = .error err →
      Code.genList M (pre ++ e :: post) = .error err := by
  intro pre
  induction pre with
  | nil =>
    intro e post err _ he
    simp [Code.genList, he]
  | cons p pre ih =>
    intro e post err hpre he
    rcases hpre p (List.mem_cons_self _ _) with ⟨c, hc⟩
    have htail := ih e post err (fun q hq => hpre q (List.mem_cons_of_mem _ hq)) he
    simp [Code.genList, hc, htail]

/-- A failed argument list compilation with the unknown function error
exhibits a failing member. -/
theorem genList_error_unknown {M : MathLib} :
    ∀ {es : List Expr} {f : String},
      Code.genList M es = .error (.unknownFunction f) →
      ∃ e, e ∈ es ∧ Code.gen M e = .error (.unknownFunction f) := by
  intro es
  induction es with
  | nil => intro f h; exact Except.noConfusion h
  | cons e es ih =>
    intro f h
    replace h : (Code.gen M e >>= fun c =>
        Code.genList M es >>= fun cs => Except.ok (c :: cs)) =
        Except.error (.unknownFunction f) := h
    rcases bind_eq_error h with he | ⟨c, _, h2⟩
    · exact ⟨e, List.mem_cons_self _ _, he⟩
    · rcases bind_eq_error h2 with hes | ⟨cs, _, h3⟩
      · rcases ih hes with ⟨e0, he0, hgen⟩
        exact ⟨e0, List.mem_cons_of_mem _ he0, hgen⟩
      · exact Except.noConfusion h3

/-- A well formed AST with no unknown calls compiles. -/
theorem gen_total (M : MathLib) :
    ∀ e, wfExpr e = true → unknownCalls e = [] →
      ∃ c, Code.gen M e = .ok c := by
  refine exprInduction
    (fun e => wfExpr e = true → unknownCalls e = [] →
      ∃ c, Code.gen M e = .ok c) ?_ ?_ ?_ ?_
  · intro s hwf _
    simp only [wfExpr, Option.isSome_iff_exists] at hwf
    rcases hwf with ⟨v, hv⟩
    exact ⟨constCode v, by rw [Code.gen.eq_def]; simp [hv]⟩
  · intro s _ _
    by_cases h1 : s = "e"
    · exact ⟨constCode (.real eFloat), by rw [Code.gen.eq_def]; simp [h1]⟩
    by_cases h2 : s = "pi"
    · exact ⟨constCode (.real piFloat), by rw [Code.gen.eq_def]; simp [h1, h2]⟩
    by_cases h3 : s = "i"
    · exact ⟨constCode (.complex 0 1), by rw [Code.gen.eq_def]; simp [h1, h2, h3]⟩
    · exact ⟨varCode s, by rw [Code.gen.eq_def]; simp [h1, h2, h3]⟩
  · intro op args ih hwf hunk
    simp only [wfExpr, Bool.and_eq_true] at hwf
    obtain ⟨harity, hwfl⟩ := hwf
    simp only [unknownCalls] at hunk
    have hch : ∀ a, a ∈ args → ∃ c, Code.gen M a = .ok c := fun a ha =>
      ih a ha (wfList_mem hwfl ha) (unknownCallsList_mem_nil hunk ha)
    by_cases h1 : op = "-"
    · subst h1
      rcases args with _ | ⟨a, _ | ⟨b, rest⟩⟩
      · simp [nodeArity] at harity
      · rcases hch a (by simp) with ⟨l, hl⟩
        exact ⟨unCode (fun x => .ok (pyNeg x)) l,
          by rw [Code.gen.eq_def]; simp [reduceIte, hl]⟩
      · rcases hch a (by simp) with ⟨l, hl⟩
        rcases hch b (by simp) with ⟨r, hr⟩
        exact ⟨binCode (fun x y => .ok (pySub x y)) l r,
          by rw [Code.gen.eq_def]; simp [reduceIte, hl, hr]⟩
    by_cases h2 : op = "!"
    · subst h2
      rcases args with _ | ⟨a, rest⟩
      · simp [nodeArity] at harity
      · rcases hch a (by simp) with ⟨l, hl⟩
        exact ⟨unCode pyFact l, by rw [Code.gen.eq_def]; simp [reduceIte, hl]⟩
    by_cases h3 : op = "abs"
    · subst h3
      rcases args with _ | ⟨a, rest⟩
      · simp [nodeArity] at harity
      · rcases hch a (by simp) with ⟨l, hl⟩
        exact ⟨unCode (fun x => .ok (pyAbsV M x)) l,
          by rw [Code.gen.eq_def]; simp [reduceIte, hl]⟩
    · by_cases hsix : op = "+" ∨ op = "*" ∨ op = "/" ∨ op = "%" ∨
        op = "//" ∨ op = "^"
      · have hlen2 : args.length = 2 := by
          simp [nodeArity, h1, h2, h3, hsix] at harity
          exact harity
        obtain ⟨g, hg⟩ : ∃ g, binOp? M op = some g := by
          rcases hsix with rfl | rfl | rfl | rfl | rfl | rfl <;> exact ⟨_, rfl⟩
        rcases args with _ | ⟨a, _ | ⟨b, rest⟩⟩
        · simp at hlen2
        · simp at hlen2
        · rcases hch a (by simp) with ⟨l, hl⟩
          rcases hch b (by simp) with ⟨r, hr⟩
          exact ⟨binCode g l r,
            by rw [Code.gen.eq_def]; simp [h1, h2, h3, hg, hl, hr]⟩
      · simp [nodeArity, h1, h2, h3, hsix] at harity
  · intro fn args ih hwf hunk
    simp only [wfExpr, Bool.and_eq_true] at hwf
    obtain ⟨harity, hwfl⟩ := hwf
    simp only [unknownCalls, List.append_eq_nil] at hunk
    obtain ⟨hunk1, hunk2⟩ := hunk
    have hch : ∀ a, a ∈ args → ∃ c, Code.gen M a = .ok c := fun a ha =>
      ih a ha (wfList_mem hwfl ha) (unknownCallsList_mem_nil hunk2 ha)
    by_cases hmm : fn = "max" ∨ fn = "min"
    · obtain ⟨cs, hcs⟩ := genList_total hch
      exact ⟨minCode cs,
        by rw [Code.gen.eq_def]; simp only [if_pos hmm, hcs, ok_bind]⟩
    · have hb : fn ∈ builtinNames := by
        by_contra hb2
        simp [hb2] at hunk1
      have hone := mem_oneArg_of_builtin hb hmm
      have hlen : args.length = 1 := by
        simp [hone] at harity
        exact harity
      obtain ⟨g, hg⟩ := unaryOp?_of (M := M) hone
      rcases args with _ | ⟨a, rest⟩
      · simp at hlen
      · rcases hch a (by simp) with ⟨l, hl⟩
        exact ⟨unCode g l,
          by rw [Code.gen.eq_def]; simp [if_neg hmm, hg, hl]⟩

/-- On a well formed AST an unknown applied name makes compilation fail
eagerly with the unknown function error, naming an unknown function
applied in the tree. -/
theorem gen_unknown (M : MathLib) :
    ∀ e, wfExpr e = true → unknownCalls e ≠ [] →
      ∃ g, g ∈ unknownCalls e ∧
        Code.gen M e = .error (.unknownFunction g) := by
  refine exprInduction
    (fun e => wfExpr e = true → unknownCalls e ≠ [] →
      ∃ g, g ∈ unknownCalls e ∧
        Code.gen M e = .error (.unknownFunction g)) ?_ ?_ ?_ ?_
  · intro s _ hne
    exact absurd rfl hne
  · intro s _ hne
    exact absurd rfl hne
  · intro op args ih hwf hne
    simp only [wfExpr, Bool.and_eq_true] at hwf
    obtain ⟨harity, hwfl⟩ := hwf
    replace hne : unknownCallsList args ≠ [] := by
      simpa [unknownCalls] using hne
    have hmemlist : ∀ {e : Expr} {g : String}, e ∈ args →
        g ∈ unknownCalls e → g ∈ unknownCalls (.node op args) := by
      intro e g he hg
      simpa [unknownCalls] using mem_unknownCallsList he hg
    by_cases h1 : op = "-"
    · subst h1
      rcases args with _ | ⟨a, _ | ⟨b, rest⟩⟩
      · simp [unknownCallsList] at hne
      · have hnea : unknownCalls a ≠ [] := by
          simpa [unknownCallsList] using hne
        rcases ih a (by simp) (wfList_mem hwfl (by simp)) hnea with
          ⟨g, hgmem, hgen⟩
        exact ⟨g, hmemlist (by simp) hgmem,
          by rw [Code.gen.eq_def]; simp [reduceIte, hgen]⟩
      · have hrest : rest = [] := by
          simp [nodeArity] at harity
          exact harity
        subst hrest
        by_cases hnea : unknownCalls a = []
        · have hneb : unknownCalls b ≠ [] := by
            simpa [unknownCallsList, hnea] using hne
          rcases gen_total M a (wfList_mem hwfl (by simp)) hnea with ⟨l, hl⟩
          rcases ih b (by simp) (wfList_mem hwfl (by simp)) hneb with
            ⟨g, hgmem, hgen⟩
          exact ⟨g, hmemlist (by simp) hgmem,
            by rw [Code.gen.eq_def]; simp [reduceIte, hl, hgen]⟩
        · rcases ih a (by simp) (wfList_mem hwfl (by simp)) hnea with
            ⟨g, hgmem, hgen⟩
          exact ⟨g, hmemlist (by simp) hgmem,
            by rw [Code.gen.eq_def]; simp [reduceIte, hgen]⟩
    by_cases h2 : op = "!"
    · subst h2
      rcases args with _ | ⟨a, rest⟩
      · simp [unknownCallsList] at hne
      · have hrest : rest = [] := by
          simp [nodeArity] at harity
          exact harity
        subst hrest
        have hnea : unknownCalls a ≠ [] := by
          simpa [unknownCallsList] using hne
        rcases ih a (by simp) (wfList_mem hwfl (by simp)) hnea with
          ⟨g, hgmem, hgen⟩
        exact ⟨g, hmemlist (by simp) hgmem,
          by rw [Code.gen.eq_def]; simp [reduceIte, hgen]⟩
    by_cases h3 : op = "abs"
    · subst h3
      rcases args with _ | ⟨a, rest⟩
      · simp [unknownCallsList] at hne
      · have hrest : rest = [] := by
          simp [nodeArity] at harity
          exact harity
        subst hrest
        have hnea : unknownCalls a ≠ [] := by
          simpa [unknownCallsList] using hne
        rcases ih a (by simp) (wfList_mem hwfl (by simp)) hnea with
          ⟨g, hgmem, hgen⟩
        exact ⟨g, hmemlist (by simp) hgmem,
          by rw [Code.gen.eq_def]; simp [reduceIte, hgen]⟩
    · by_cases hsix : op = "+" ∨ op = "*" ∨ op = "/" ∨ op = "%" ∨
        op = "//" ∨ op = "^"
      · have hlen2 : args.length = 2 := by
          simp [nodeArity, h1, h2, h3, hsix] at harity
          exact harity
        obtain ⟨g0, hg0⟩ : ∃ g0, binOp? M op = some g0 := by
          rcases hsix with rfl | rfl | rfl | rfl | rfl | rfl <;> exact ⟨_, rfl⟩
        rcases args with _ | ⟨a, _ | ⟨b, rest⟩⟩
        · simp at hlen2
        · simp at hlen2
        · have hrest : rest = [] := by simpa using hlen2
          subst hrest
          by_cases hnea : unknownCalls a = []
          · have hneb : unknownCalls b ≠ [] := by
              simpa [unknownCallsList, hnea] using hne
            rcases gen_total M a (wfList_mem hwfl (by simp)) hnea with ⟨l, hl⟩
            rcases ih b (by simp) (wfList_mem hwfl (by simp)) hneb with
              ⟨g, hgmem, hgen⟩
            exact ⟨g, hmemlist (by simp) hgmem,
              by rw [Code.gen.eq_def]; simp [h1, h2, h3, hg0, hl, hgen]⟩
          · rcases ih a (by simp) (wfList_mem hwfl (by simp)) hnea with
              ⟨g, hgmem, hgen⟩
            exact ⟨g, hmemlist (by simp) hgmem,
              by rw [Code.gen.eq_def]; simp [h1, h2, h3, hg0, hgen]⟩
      · simp [nodeArity, h1, h2, h3, hsix] at harity
  · intro fn args ih hwf hne
    simp only [wfExpr, Bool.and_eq_true] at hwf
    obtain ⟨harity, hwfl⟩ := hwf
    by_cases hb : fn ∈ builtinNames
    · replace hne : unknownCallsList args ≠ [] := by
        simpa [unknownCalls, hb] using hne
      have hmemlist : ∀ {e : Expr} {g : String}, e ∈ args →
          g ∈ unknownCalls e → g ∈ unknownCalls (.apply fn args) := by
        intro e g he hg
        simp only [unknownCalls]
        exact List.mem_append.mpr (Or.inr (mem_unknownCallsList he hg))
      by_cases hmm : fn = "max" ∨ fn = "min"
      · rcases firstUnknown hne with ⟨pre, e0, post, heq, hpre, he0⟩
        subst heq
        have he0mem : e0 ∈ pre ++ e0 :: post := by simp
        rcases ih e0 he0mem (wfList_mem hwfl he0mem) he0 with ⟨g, hgmem, hgen⟩
        have hpreok : ∀ p, p ∈ pre → ∃ c, Code.gen M p = .ok c := fun p hp =>
          gen_total M p (wfList_mem hwfl (by simp [hp])) (hpre p hp)
        refine ⟨g, hmemlist he0mem hgmem, ?_⟩
        rw [Code.gen.eq_def]
        simp only [if_pos hmm, genList_err pre e0 post (GenError.unknownFunction g) hpreok hgen, error_bind]
      · have hone := mem_oneArg_of_builtin hb hmm
        have hlen : args.length = 1 := by
          simp [hone] at harity
          exact harity
        obtain ⟨g0, hg0⟩ := unaryOp?_of (M := M) hone
        rcases args with _ | ⟨a, rest⟩
        · simp at hlen
        · have hrest : rest = [] := by simpa using hlen
          subst hrest
          have hnea : unknownCalls a ≠ [] := by
            simpa [unknownCallsList] using hne
          rcases ih a (by simp) (wfList_mem hwfl (by simp)) hnea with
            ⟨g, hgmem, hgen⟩
          exact ⟨g, hmemlist (by simp) hgmem,
            by rw [Code.gen.eq_def]; simp [if_neg hmm, hg0, hgen]⟩
    · refine ⟨fn, by simp [unknownCalls, hb], ?_⟩
      have hnone : unaryOp? M fn = none :=
        unaryOp?_none fun hone => hb (by fin_cases hone <;> decide)
      have hmm : ¬(fn = "max" ∨ fn = "min") := by
        rintro (rfl | rfl) <;> exact hb (by decide)
      rw [Code.gen.eq_def]
      simp [if_neg hmm, hnone]

/-- Compilation of an AST applying only builtin names never fails with
the unknown function error (whatever else may go wrong). -/
theorem gen_no_unknown (M : MathLib) :
    ∀ e, unknownCalls e = [] →
      ∀ f, Code.gen M e ≠ .error (.unknownFunction f) := by
  refine exprInduction
    (fun e => unknownCalls e = [] →
      ∀ f, Code.gen M e ≠ .error (.unknownFunction f)) ?_ ?_ ?_ ?_
  · intro s _ f h
    replace h : (match numValue? s with
      | some v => Except.ok (constCode v)
      | none => Except.error (GenError.badNum s)) =
        Except.error (GenError.unknownFunction f) := h
    cases hv : numValue? s with
    | none =>
      rw [hv] at h
      exact GenError.noConfusion (Except.error.inj h)
    | some v =>
      rw [hv] at h
      exact Except.noConfusion h
  · intro s _ f h
    replace h : (if s = "e" then Except.ok (constCode (.real eFloat))
      else if s = "pi" then Except.ok (constCode (.real piFloat))
      else if s = "i" then Except.ok (constCode (.complex 0 1))
      else Except.ok (varCode s)) =
        Except.error (GenError.unknownFunction f) := h
    by_cases h1 : s = "e"
    · rw [if_pos h1] at h; exact Except.noConfusion h
    rw [if_neg h1] at h
    by_cases h2 : s = "pi"
    · rw [if_pos h2] at h; exact Except.noConfusion h
    rw [if_neg h2] at h
    by_cases h3 : s = "i"
    · rw [if_pos h3] at h; exact Except.noConfusion h
    rw [if_neg h3] at h
    exact Except.noConfusion h
  · intro op args ih hunk f h
    simp only [unknownCalls] at hunk
    have hch : ∀ e2, e2 ∈ args → unknownCalls e2 = [] := fun e2 he2 =>
      unknownCallsList_mem_nil hunk he2
    by_cases h1 : op = "-"
    · subst h1
      rw [Code.gen.eq_def] at h
      rcases args with _ | ⟨a, _ | ⟨b, rest⟩⟩
      · simp at h
      · simp only [reduceIte] at h
        rcases bind_eq_error h with ha | ⟨l, _, h2⟩
        · exact ih a (by simp) (hch a (by simp)) f ha
        · exact Except.noConfusion h2
      · simp only [reduceIte] at h
        rcases bind_eq_error h with ha | ⟨l, _, h2⟩
        · exact ih a (by simp) (hch a (by simp)) f ha
        · rcases bind_eq_error h2 with hb2 | ⟨r, _, h3⟩
          · exact ih b (by simp) (hch b (by simp)) f hb2
          · exact Except.noConfusion h3
    by_cases h2 : op = "!"
    · subst h2
      rw [Code.gen.eq_def] at h
      rcases args with _ | ⟨a, rest⟩
      · simp at h
      · simp only [reduceIte] at h
        rcases bind_eq_error h with ha | ⟨l, _, h3⟩
        · exact ih a (by simp) (hch a (by simp)) f ha
        · exact Except.noConfusion h3
    by_cases h3 : op = "abs"
    · subst h3
      rw [Code.gen.eq_def] at h
      rcases args with _ | ⟨a, rest⟩
      · simp at h
      · simp only [reduceIte] at h
        rcases bind_eq_error h with ha | ⟨l, _, h4⟩
        · exact ih a (by simp) (hch a (by simp)) f ha
        · exact Except.noConfusion h4
    · rw [Code.gen.eq_def] at h
      simp only [if_neg h1, if_neg h2, if_neg h3] at h
      cases hg : binOp? M op with
      | none =>
        rw [hg] at h
        exact GenError.noConfusion (Except.error.inj h)
      | some g =>
        rw [hg] at h
        rcases args with _ | ⟨a, _ | ⟨b, rest⟩⟩
        · exact GenError.noConfusion (Except.error.inj h)
        · rcases bind_eq_error h with ha | ⟨l, _, h4⟩
          · exact ih a (by simp) (hch a (by simp)) f ha
          · exact GenError.noConfusion (Except.error.inj h4)
        · rcases bind_eq_error h with ha | ⟨l, _, h4⟩
          · exact ih a (by simp) (hch a (by simp)) f ha
          · rcases bind_eq_error h4 with hb2 | ⟨r, _, h5⟩
            · exact ih b (by simp) (hch b (by simp)) f hb2
            · exact Except.noConfusion h5
  · intro fn args ih hunk f h
    simp only [unknownCalls, List.append_eq_nil] at hunk
    obtain ⟨hunk1, hunk2⟩ := hunk
    have hb : fn ∈ builtinNames := by
      by_contra hb2
      simp [hb2] at hunk1
    have hch : ∀ e2, e2 ∈ args → unknownCalls e2 = [] := fun e2 he2 =>
      unknownCallsList_mem_nil hunk2 he2
    rw [Code.gen.eq_def] at h
    by_cases hmm : fn = "max" ∨ fn = "min"
    · simp only [if_pos hmm] at h
      rcases bind_eq_error h with hgl | ⟨cs, _, h2⟩
      · rcases genList_error_unknown hgl with ⟨e0, he0, hgen⟩
        exact ih e0 he0 (hch e0 he0) f hgen
      · exact Except.noConfusion h2
    · simp only [if_neg hmm] at h
      cases hg : unaryOp? M fn with
      | none =>
        rcases unaryOp?_of (M := M) (mem_oneArg_of_builtin hb hmm) with
          ⟨g, hg2⟩
        rw [hg] at hg2
        exact Option.noConfusion hg2
      | some g =>
        rw [hg] at h
        rcases args with _ | ⟨a, rest⟩
        · exact GenError.noConfusion (Except.error.inj h)
        · rcases bind_eq_error h with ha | ⟨l, _, h2⟩
          · exact ih a (by simp) (hch a (by simp)) f ha
          · exact Except.noConfusion h2

/-! ## Claims -/

/-- C1.  The specification demands that a call of `max` with two or more
arguments evaluate to the maximum of the evaluated arguments, and `min`
to the minimum.  The source dispatches the `max` builtin to `min`
(line 377 builds `min([a.run(kw) for a in args])`), so `max(1, 2)`
evaluates to `1` rather than `2`; `min` itself is correct.  This theorem
evaluates the code at the failing input, for every interpretation of the
abstract math primitives. -/
theorem claim1_max_dispatches_to_min (M : MathLib) :
    runText M "max(1, 2)" (fun _ => none) = some (.int 1) ∧
    runText M "min(1, 2)" (fun _ => none) = some (.int 1) ∧
    Value.int 1 ≠ Value.int 2 :=
  ⟨rfl, rfl, by decide⟩

/-- Counterexample to C2 as stated: the program is Python 2, where `/` on
two ints is classic flooring division, so evaluating `3/2` yields the
integer `1` and not `1.5`. -/
theorem claim2_counterexample :
    runText defaultMathLib "3/2" (fun _ => none) = some (.int 1) ∧
    Value.int 1 ≠ Value.real (3 / 2) :=
  ⟨rfl, by decide⟩

/-- C2 amended: `/` is Python 2 classic division: flooring division when
both operands are ints (so `3/2` evaluates to `1`), true division as soon
as an operand is a float (so `3.0/2` evaluates to `1.5`); `//` is explicit
floor division. -/
theorem claim2_division_amended :
    (∀ a b : ℤ, b ≠ 0 → pyDiv (.int a) (.int b) = .ok (.int (Int.fdiv a b))) ∧
    (∀ p q : ℚ, q ≠ 0 → pyDiv (.real p) (.real q) = .ok (.real (p / q))) ∧
    (∀ a b : ℤ, b ≠ 0 →
      pyFloorDiv (.int a) (.int b) = .ok (.int (Int.fdiv a b))) ∧
    (∀ M : MathLib, runText M "3/2" (fun _ => none) = some (.int 1)) ∧
    runText defaultMathLib "3.0/2" (fun _ => none) = some (.real (3 / 2)) := by
  refine ⟨?_, ?_, ?_, fun M => rfl, by with_unfolding_all rfl⟩
  · intro a b hb
    simp [pyDiv, hb]
  · intro p q hq
    simp [pyDiv, Value.isComplex, Value.toQ, hq]
  · intro a b hb
    simp [pyFloorDiv, hb]

/-- Witness for the amended C2, applying it at concrete operands. -/
theorem claim2_witness :
    pyDiv (.int 7) (.int 2) = .ok (.int (Int.fdiv 7 2)) ∧
    pyDiv (.real 1) (.real 2) = .ok (.real (1 / 2)) :=
  ⟨claim2_division_amended.1 7 2 (by decide),
   claim2_division_amended.2.1 1 2 (by decide)⟩

/-- C3.  The claim (and the grammar documented in the source,
`E5_ -> ! E5_ | e`) has `n` consecutive `!` signs produce `n` nested
factorials, so `3!!` should evaluate to `720`.  In the source `parseE5_`
returns a token for an odd run of `!` and `None` for an even run, and
`parseE5` applies at most one factorial node, so consecutive `!` signs
cancel pairwise: `3!!` parses as the bare literal `3` and evaluates to
`3`, and even `3!!!` evaluates to `6`. -/
theorem claim3_factorial_stacking_bug (M : MathLib) :
    parse "3!" = .ok (.node "!" [.num "3"]) ∧
    runText M "3!" (fun _ => none) = some (.int 6) ∧
    parse "3!!" = .ok (.num "3") ∧
    runText M "3!!" (fun _ => none) = some (.int 3) ∧
    parse "3!!!" = .ok (.node "!" [.num "3"]) ∧
    runText M "3!!!" (fun _ => none) = some (.int 6) :=
  ⟨rfl, rfl, rfl, rfl, rfl, rfl⟩

/-- Counterexample to C4 as stated: `2)` is not rejected; the parse
succeeds and returns the AST of the prefix `2`, with the trailing `)`
left unconsumed. -/
theorem claim4_counterexample : parse "2)" = .ok (.num "2") := rfl

/-- C4 amended: the parser rejects an input as soon as the lookahead
token lies outside the expected set at a grammar point, reporting the
offending token text and byte offset, and returns no partial AST in that
case; but a successful parse does not require the whole token stream to
be consumed: a trailing token in the follow set of the start production
(`)`, `|` or `,`) is left unconsumed and the AST of the consumed prefix
is returned, so `2)` parses as `2`. -/
theorem claim4_amended :
    parse "2)" = .ok (.num "2") ∧
    parse "2|" = .ok (.num "2") ∧
    parse ")2" = .error (.unexpected (some ")") 0) ∧
    parse "2+" = .error (.unexpected none 2) ∧
    parse "(2" = .error (.unexpected none 2) ∧
    parse "2 * * 3" = .error (.unexpected (some "*") 4) :=
  ⟨rfl, rfl, rfl, rfl, rfl, rfl⟩

/-- C8.  Unary minus applies to a power level operand, so `-2^2` parses
as the negation of `2^2` and evaluates to `-4`; and `^` is right
associative, so `2^3^2` parses as `2^(3^2)` and evaluates to `512`. -/
theorem claim8_unary_minus_and_right_assoc (M : MathLib) :
    parse "-2^2" = .ok (.node "-" [.node "^" [.num "2", .num "2"]]) ∧
    runText M "-2^2" (fun _ => none) = some (.int (-4)) ∧
    parse "2^3^2" = .ok (.node "^" [.num "2", .node "^" [.num "3", .num "2"]]) ∧
    runText M "2^3^2" (fun _ => none) = some (.int 512) :=
  ⟨rfl, rfl, rfl, rfl⟩

/-- Counterexample to C6 as stated: applying a one argument builtin to
two arguments is not rejected; the extra argument is ignored entirely
(it is not even compiled, so an unbound variable there cannot fail) and
the call evaluates the builtin on the first argument alone. -/
theorem claim6_counterexample :
    parse "floor(1.5, x)" = .ok (.apply "floor" [.num "1.5", .id "x"]) ∧
    runText defaultMathLib "floor(1.5, x)" (fun _ => none) = some (.real 1) :=
  ⟨rfl, by with_unfolding_all rfl⟩

/-- C6 amended: every builtin other than `max` and `min` compiles only
its first argument: applying it to two or more arguments is accepted and
behaves exactly like applying it to the first argument alone, and
applying it to one argument evaluates that argument and applies the
corresponding operation to the result. -/
theorem claim6_amended (M : MathLib) (fn : String) (hfn : fn ∈ oneArgBuiltins)
    (a : Expr) (rest : List Expr) :
    Code.gen M (.apply fn (a :: rest)) = Code.gen M (.apply fn [a]) ∧
    ∃ g, unaryOp? M fn = some g ∧
      ∀ ca, Code.gen M a = .ok ca →
        Code.gen M (.apply fn [a]) = .ok (unCode g ca) := by
  fin_cases hfn <;>
    exact ⟨rfl, _, rfl, fun ca hca => by simp [Code.gen, unaryOp?, hca]⟩

/-- Witness for the amended C6 at `sin(1, 2)`. -/
theorem claim6_witness :
    Code.gen defaultMathLib (.apply "sin" [.num "1", .num "2"]) =
      Code.gen defaultMathLib (.apply "sin" [.num "1"]) :=
  (claim6_amended defaultMathLib "sin" (by decide) (.num "1") [.num "2"]).1

/-- Counterexample to C5 as stated: an AST can contain an application of
an unknown function and still compile, because the extra arguments of a
one argument builtin are never compiled: `sin(1, bogus(2))` parses to an
AST applying the unknown name `bogus`, compiles without error and
evaluates. -/
theorem claim5_counterexample :
    parse "sin(1, bogus(2))" =
      .ok (.apply "sin" [.num "1", .apply "bogus" [.num "2"]]) ∧
    unknownCalls (.apply "sin" [.num "1", .apply "bogus" [.num "2"]]) =
      ["bogus"] ∧
    runText defaultMathLib "sin(1, bogus(2))" (fun _ => none) =
      some (.real (defaultMathLib.sin 1)) :=
  ⟨rfl, rfl, by with_unfolding_all rfl⟩

/-- Counterexample to C9 as stated: the compiled free name list of
`sin(x, y)` is `["x"]`, not the concatenation `["x", "y"]` of the
children's lists, because the extra argument of a one argument builtin is
not compiled. -/
theorem claim9_counterexample :
    parse "sin(x, y)" = .ok (.apply "sin" [.id "x", .id "y"]) ∧
    (Code.gen defaultMathLib (.apply "sin" [.id "x", .id "y"])).toOption.map
      Code.names = some ["x"] ∧
    flatNames (.apply "sin" [.id "x", .id "y"]) = ["x", "y"] ∧
    some ["x"] ≠ some ["x", "y"] :=
  ⟨rfl, rfl, rfl, by decide⟩

/-- C5 amended: compiling `bogus(1)` fails with a compile error naming
`bogus`, before any evaluation and with no environment supplied; on every
AST whose one argument builtins carry exactly one argument (so that every
child is compiled), an application of a name outside the builtin set
anywhere in the tree makes compilation fail with the unknown function
error, naming an unknown function applied in the tree; and compiling an
AST that applies only builtin names never raises this error, whatever
else may go wrong. -/
theorem claim5_amended :
    (∀ M : MathLib, Code.gen M (.apply "bogus" [.num "1"]) =
      .error (.unknownFunction "bogus")) ∧
    (∀ (M : MathLib) (e : Expr), wfExpr e = true → unknownCalls e ≠ [] →
      ∃ g, g ∈ unknownCalls e ∧ g ∉ builtinNames ∧
        Code.gen M e = .error (.unknownFunction g)) ∧
    (∀ (M : MathLib) (e : Expr) (f : String), unknownCalls e = [] →
      Code.gen M e ≠ .error (.unknownFunction f)) := by
  refine ⟨fun M => rfl, ?_, ?_⟩
  · intro M e hwf hne
    rcases gen_unknown M e hwf hne with ⟨g, hgmem, hgen⟩
    exact ⟨g, hgmem, mem_unknownCalls_not_builtin e hgmem, hgen⟩
  · intro M e f hunk
    exact gen_no_unknown M e hunk f

/-- Witness for the amended C5 at `bogus(1)` and at `sin(bogus(1))`. -/
theorem claim5_witness :
    (∃ g, g ∈ unknownCalls (.apply "sin" [.apply "bogus" [.num "1"]]) ∧
      g ∉ builtinNames ∧
      Code.gen defaultMathLib (.apply "sin" [.apply "bogus" [.num "1"]]) =
        .error (.unknownFunction g)) ∧
    Code.gen defaultMathLib (.apply "max" [.num "1", .num "2"]) ≠
      .error (.unknownFunction "max") :=
  ⟨claim5_amended.2.1 defaultMathLib (.apply "sin" [.apply "bogus" [.num "1"]])
      (by decide) (by decide),
   claim5_amended.2.2 defaultMathLib (.apply "max" [.num "1", .num "2"])
      "max" (by decide)⟩

/-- Counterexample to C7 as stated: an arithmetic fault that evaluation
reaches before the lookup preempts the lookup error.  Compiling `1/0+x`
yields a code whose free name list contains `x`; evaluating it against
the empty environment (which lacks `x`) fails with the division by zero
error, not with a lookup error naming `x`. -/
theorem claim7_counterexample :
    parse "1/0+x" =
      .ok (.node "+" [.node "/" [.num "1", .num "0"], .id "x"]) ∧
    (Code.gen defaultMathLib
        (.node "+" [.node "/" [.num "1", .num "0"], .id "x"])).toOption.map
      (fun c => (c.names, c.run fun _ => none)) =
      some (["x"], .error .zeroDiv) ∧
    EvalErr.zeroDiv ≠ .keyError "x" :=
  ⟨rfl, rfl, by decide⟩

/-- C7 amended: evaluating a compiled expression against an environment
missing one of its referenced variable names always fails; when the
failing lookup is the first fault evaluation reaches — in particular for
`x+1` against an environment lacking `x` — the error is the lookup error
naming that missing key. -/
theorem claim7_amended :
    (∀ (M : MathLib) (env : Env), env "x" = none →
      parse "x+1" = .ok (.node "+" [.id "x", .num "1"]) ∧
      Code.gen M (.node "+" [.id "x", .num "1"]) =
        .ok (binCode (fun a b => .ok (pyAdd a b)) (varCode "x")
          (constCode (.int 1))) ∧
      (binCode (fun a b => .ok (pyAdd a b)) (varCode "x")
          (constCode (.int 1))).run env = .error (.keyError "x")) ∧
    (∀ (M : MathLib) (e : Expr) (c : Code) (env : Env) (s : String),
      Code.gen M e = .ok c → s ∈ c.names → env s = none →
      ∃ err, c.run env = .error err) := by
  constructor
  · intro M env henv
    refine ⟨rfl, rfl, ?_⟩
    simp [Code.run, binCode, varCode, constCode, henv]
  · intro M e c env s hgen hs henv
    exact (gen_runsOk M e c hgen).2.2 s env hs henv

/-- Witness for the amended C7 at `x+1` and the empty environment. -/
theorem claim7_witness :
    parse "x+1" = .ok (.node "+" [.id "x", .num "1"]) ∧
    Code.gen defaultMathLib (.node "+" [.id "x", .num "1"]) =
      .ok (binCode (fun a b => .ok (pyAdd a b)) (varCode "x")
        (constCode (.int 1))) ∧
    (binCode (fun a b => .ok (pyAdd a b)) (varCode "x")
        (constCode (.int 1))).run (fun _ => none) = .error (.keyError "x") :=
  claim7_amended.1 defaultMathLib (fun _ => none) rfl

/-- C9 amended: on every AST in which each one argument builtin is
applied to exactly one argument (the only case in which the compiler
skips children), the compiled free name list is the flat concatenation of
the children's lists in left to right construction order, preserving
duplicates, with constants and literals contributing no names — the list
`flatNames` stated from the specification wording. -/
theorem claim9_amended (M : MathLib) (e : Expr) (hwf : wfExpr e = true)
    (c : Code) (h : Code.gen M e = .ok c) : c.names = flatNames e :=
  gen_names_flat M e hwf c h

/-- Witness for the amended C9 at `a+a`, showing the duplicate
preserved. -/
theorem claim9_witness :
    (binCode (fun a b => .ok (pyAdd a b)) (varCode "a")
        (varCode "a")).names = flatNames (.node "+" [.id "a", .id "a"]) ∧
    flatNames (.node "+" [.id "a", .id "a"]) = ["a", "a"] :=
  ⟨claim9_amended defaultMathLib (.node "+" [.id "a", .id "a"]) (by decide)
      _ rfl, rfl⟩

/-- C10.  The identifiers `e`, `pi` and `i` always compile to the built
in constants (the binary64 values of Euler's number and pi, and the
imaginary unit), never to environment lookups; consequently, for every
compiled expression, these three names never occur in its free name
list, and overriding any of them in the environment never changes the
result of evaluation. -/
theorem claim10_constants :
    (∀ M : MathLib,
      Code.gen M (.id "e") = .ok (constCode (.real eFloat)) ∧
      Code.gen M (.id "pi") = .ok (constCode (.real piFloat)) ∧
      Code.gen M (.id "i") = .ok (constCode (.complex 0 1))) ∧
    (∀ (M : MathLib) (e : Expr) (c : Code), Code.gen M e = .ok c →
      ("e" ∉ c.names ∧ "pi" ∉ c.names ∧ "i" ∉ c.names) ∧
      ∀ (name : String), name = "e" ∨ name = "pi" ∨ name = "i" →
        ∀ (env : Env) (v : Value),
          c.run (fun s => if s = name then some v else env s) =
            c.run env) := by
  refine ⟨fun M => ⟨rfl, rfl, rfl⟩, ?_⟩
  intro M e c h
  have hro := gen_runsOk M e c h
  constructor
  · exact ⟨fun hmem => (hro.1 _ hmem).1 rfl,
      fun hmem => (hro.1 _ hmem).2.1 rfl,
      fun hmem => (hro.1 _ hmem).2.2 rfl⟩
  · intro name hname env v
    refine hro.2.1 _ _ fun s hs => ?_
    have hne := hro.1 s hs
    have hsname : s ≠ name := by
      rcases hname with rfl | rfl | rfl
      exacts [hne.1, hne.2.1, hne.2.2]
    simp [hsname]

/-- Witness for C10: the compilation of the bare identifier `e`, of whose
evaluation a binding of the key `e` in the environment is ignored. -/
theorem claim10_witness :
    (constCode (.real eFloat)).run
        (fun s => if s = "e" then some (.int 5) else (fun _ => none) s) =
      (constCode (.real eFloat)).run (fun _ => none) :=
  ((claim10_constants.2 defaultMathLib (.id "e") (constCode (.real eFloat))
      (claim10_constants.1 defaultMathLib).1).2 "e" (Or.inl rfl)
    (fun _ => none) (.int 5))

end PyCalc
